import Mathlib

/-!
# Inkplate 2 e-paper driver: framebuffer codec and resumable transfer

A shallow embedding of `EPaperInkplate2` (`epaper_spi_inkplate2.h`,
`epaper_spi_inkplate2.cpp`).  Bytes are natural numbers; an assignment to a
`uint8_t` keeps the low eight bits.  The driver object is a record that is
passed through every operation, the transport is a list of emitted events.
-/

set_option autoImplicit false

namespace Inkplate2

/-! ## Data model -/

/-- Modelled from the spec: the `Color` value type belongs to the host framework and is
not part of the sources.  It carries red/green/blue intensities and the answer of
`is_on()`, the on/off flag. -/
structure Color where
  red : Nat
  green : Nat
  blue : Nat
  is_on : Bool
deriving DecidableEq

/-- The fields of `EPaperInkplate2` used by the operations below.  `buffer_` is the
region of `buffer_length_` bytes that the base class allocates; the pair is kept as one
list, so `buffer_length_` is its length. -/
structure EPaperInkplate2 where
  width_ : Nat
  height_ : Nat
  buffer_ : List Nat
  current_data_index_ : Nat
deriving DecidableEq

/-- The field `buffer_length_`: the number of bytes of `buffer_`. -/
def EPaperInkplate2.buffer_length_ (s : EPaperInkplate2) : Nat :=
  s.buffer_.length

/-- The constructor's assignment `buffer_length_ = (width * height / 8) * 2`
(header, line 13).  The product is taken in `int`; the model is exact below `2^31`. -/
def constructor_buffer_length (width height : Nat) : Nat :=
  (width * height / 8) * 2

/-- The constant `MAX_TRANSFER_SIZE` (line 10). -/
def MAX_TRANSFER_SIZE : Nat := 128

/-! ## Plane codec -/

/-- The test `is_red` of `fill` (line 49) and of `draw_absolute_pixel_internal` (line 94). -/
def is_red (color : Color) : Bool :=
  decide (color.red > 200) && decide (color.green < 100) && decide (color.blue < 100)

/-- The test `is_black` of `fill` (line 50) and of `draw_absolute_pixel_internal` (line 95). -/
def is_black (color : Color) : Bool :=
  !color.is_on

/-- The byte `fill` writes into the B/W half (lines 54-66). -/
def fill_bw_byte (color : Color) : Nat :=
  if is_black color then 0xFF
  else if is_red color then 0x00
  else 0x00

/-- The byte `fill` writes into the red half (lines 54-66). -/
def fill_red_byte (color : Color) : Nat :=
  if is_black color then 0xFF
  else if is_red color then 0x00
  else 0xFF

/-- One pass of `for (i = lo; i < hi; i++) buffer_[i] = v;` with `n` iterations left. -/
def fill_range (v : Nat) : Nat → Nat → List Nat → List Nat
  | 0, _, buf => buf
  | n + 1, i, buf => fill_range v n (i + 1) (buf.set i v)

/-- The method `EPaperInkplate2::fill` (lines 45-77): the first loop runs over `[0, buf_half_len)`,
the second over `[buf_half_len, buffer_length_)`. -/
def fill (s : EPaperInkplate2) (color : Color) : EPaperInkplate2 :=
  let buf_half_len := s.buffer_length_ / 2
  let bw_byte := fill_bw_byte color
  let red_byte := fill_red_byte color
  let b1 := fill_range bw_byte (buf_half_len - 0) 0 s.buffer_
  let b2 := fill_range red_byte (s.buffer_length_ - buf_half_len) buf_half_len b1
  { s with buffer_ := b2 }

/-- The statement `buffer_[i] |= mask` on a `uint8_t` cell; `none` when `i` is outside the buffer. -/
def or_byte (buf : List Nat) (i mask : Nat) : Option (List Nat) :=
  if h : i < buf.length then some (buf.set i ((buf[i] ||| mask) % 256)) else none

/-- The statement `buffer_[i] &= ~mask` on a `uint8_t` cell: `~mask` is the 32-bit complement of the
promoted mask, the result is stored back into eight bits; `none` when `i` is outside the
buffer. -/
def and_not_byte (buf : List Nat) (i mask : Nat) : Option (List Nat) :=
  if h : i < buf.length then some (buf.set i ((buf[i] &&& (0xFFFFFFFF - mask)) % 256))
  else none

/-- The local `pos` of `draw_absolute_pixel_internal` (line 89) for `x, y ≥ 0`.  The sum
`x + y * width_` is an `int`; the model is exact below `2^31`. -/
def pixel_pos (width : Nat) (x y : Int) : Nat :=
  ((x + y * (width : Int)) / 8).toNat

/-- The local `bit_position` of `draw_absolute_pixel_internal` (lines 90-91) for `x ≥ 0`:
`subpos = x & 0x07`, `bit_position = 7 - subpos`. -/
def pixel_bit (x : Int) : Nat :=
  let subpos := (x.toNat &&& 0x07) % 256
  (7 - subpos) % 256

/-- The local `mask` of `draw_absolute_pixel_internal` (line 92). -/
def pixel_mask (x : Int) : Nat :=
  (1 <<< pixel_bit x) % 256

/-- The method `EPaperInkplate2::draw_absolute_pixel_internal` (lines 84-110).  The result is `none`
when one of the two buffer accesses falls outside `buffer_`. -/
def draw_absolute_pixel_internal (s : EPaperInkplate2) (x y : Int) (color : Color) :
    Option EPaperInkplate2 :=
  if x ≥ (s.width_ : Int) ∨ y ≥ (s.height_ : Int) ∨ x < 0 ∨ y < 0 then some s
  else
    let buf_half_len := s.buffer_length_ / 2
    let pos := pixel_pos s.width_ x y
    let mask := pixel_mask x
    (if is_black color then or_byte s.buffer_ pos mask
      else and_not_byte s.buffer_ pos mask).bind fun b1 =>
    (if is_red color then and_not_byte b1 (pos + buf_half_len) mask
      else or_byte b1 (pos + buf_half_len) mask).bind fun b2 =>
    some { s with buffer_ := b2 }

/-! ## Transfer engine -/

/-- What the driver asks of its collaborators: `command(b)`, `data(b)`, `start_data_()`,
`write_array(bytes, n)`, `end_data_()` and `delayMicroseconds(n)`. -/
inductive Event where
  | command (b : Nat)
  | data (b : Nat)
  | start_data
  | write_array (bytes : List Nat)
  | end_data
  | delay_us (n : Nat)
deriving DecidableEq

/-- The three statements `start_data_(); write_array(bytes_to_send, buf_idx); end_data_();`
(lines 132-134, 146-148, 163-165, 177-179). -/
def flush_events (bytes_to_send : List Nat) : List Event :=
  [Event.start_data, Event.write_array bytes_to_send, Event.end_data]

/-- The variables that live across the two `while` loops of `transfer_data`:
the member `current_data_index_`, the filled part `bytes_to_send[0 .. buf_idx)` of the
local chunk buffer, the events emitted so far, and the number of deadline tests
evaluated so far. -/
structure LoopState where
  current_data_index_ : Nat
  bytes_to_send : List Nat
  log : List Event
  checks : Nat
deriving DecidableEq

/-- The `while (current_data_index_ < limit) { ... }` loop of `transfer_data` (lines 128-142
with `limit = buf_half_len`, lines 159-173 with `limit = buffer_length_`; the two bodies
are the same).  `C` is `sizeof bytes_to_send`.  `exceeded k` is the outcome of the `k`-th
evaluation of `millis() - start_time > MAX_TRANSFER_TIME`.  The first argument counts the
iterations that remain, `limit - current_data_index_`.  The Boolean is `true` when the
loop left the function through `return false`. -/
def transfer_loop (C : Nat) (exceeded : Nat → Bool) (buffer_ : List Nat) (limit : Nat) :
    Nat → LoopState → Bool × LoopState
  | 0, st => (false, st)
  | n + 1, st =>
    if st.current_data_index_ < limit then
      let bytes := st.bytes_to_send ++ [buffer_.getD st.current_data_index_ 0]
      let idx := st.current_data_index_ + 1
      if bytes.length = C then
        let log := st.log ++ flush_events bytes
        if exceeded st.checks then
          (true, { current_data_index_ := idx, bytes_to_send := [], log := log,
                   checks := st.checks + 1 })
        else
          transfer_loop C exceeded buffer_ limit n
            { current_data_index_ := idx, bytes_to_send := [], log := log,
              checks := st.checks + 1 }
      else
        transfer_loop C exceeded buffer_ limit n
          { current_data_index_ := idx, bytes_to_send := bytes, log := st.log,
            checks := st.checks }
    else (false, st)

/-- The `if (buf_idx != 0) { flush; buf_idx = 0; }` blocks (lines 145-150, 176-180). -/
def flush_remaining (st : LoopState) : LoopState :=
  if st.bytes_to_send.length ≠ 0 then
    { st with log := st.log ++ flush_events st.bytes_to_send, bytes_to_send := [] }
  else st

/-- What one invocation of `transfer_data` leaves behind: the driver, the events of this
invocation, the running count of deadline tests, and the returned Boolean. -/
structure Call where
  dev : EPaperInkplate2
  log : List Event
  checks : Nat
  result : Bool
deriving DecidableEq

/-- The entry of `transfer_data` (lines 116-125): `command(0x10)` when the cursor is 0,
then `buf_idx = 0`. -/
def transfer_begin (s : EPaperInkplate2) (checks : Nat) : LoopState :=
  { current_data_index_ := s.current_data_index_, bytes_to_send := [],
    log := if s.current_data_index_ = 0 then [Event.command 0x10] else [],
    checks := checks }

/-- Between the two loops of `transfer_data` (lines 144-156): flush the remaining B/W
bytes, then `command(0x13)` when the cursor equals `buf_half_len`. -/
def transfer_boundary (buf_half_len : Nat) (st : LoopState) : LoopState :=
  let st1 := flush_remaining st
  if st1.current_data_index_ = buf_half_len then
    { st1 with log := st1.log ++ [Event.command 0x13] }
  else st1

/-- The method `EPaperInkplate2::transfer_data` (lines 112-185), with `C = sizeof bytes_to_send`
(`MAX_TRANSFER_SIZE` in the source), the deadline outcomes `exceeded` and the number
`checks` of deadline tests evaluated before this invocation. -/
def transfer_data (C : Nat) (exceeded : Nat → Bool) (checks : Nat) (s : EPaperInkplate2) :
    Call :=
  let buf_half_len := s.buffer_length_ / 2
  let r1 := transfer_loop C exceeded s.buffer_ buf_half_len
    (buf_half_len - s.current_data_index_) (transfer_begin s checks)
  if r1.1 then
    { dev := { s with current_data_index_ := r1.2.current_data_index_ },
      log := r1.2.log, checks := r1.2.checks, result := false }
  else
    let st2 := transfer_boundary buf_half_len r1.2
    let r2 := transfer_loop C exceeded s.buffer_ s.buffer_length_
      (s.buffer_length_ - st2.current_data_index_) st2
    if r2.1 then
      { dev := { s with current_data_index_ := r2.2.current_data_index_ },
        log := r2.2.log, checks := r2.2.checks, result := false }
    else
      let st3 := flush_remaining r2.2
      { dev := { s with current_data_index_ := 0 },
        log := st3.log, checks := st3.checks, result := true }

/-- The host loop: `n` successive invocations of `transfer_data`, each entered with the
driver and the deadline count the previous one left. -/
def transfer_calls (C : Nat) (exceeded : Nat → Bool) : Nat → Nat → EPaperInkplate2 → List Call
  | 0, _, _ => []
  | n + 1, checks, s =>
    let r := transfer_data C exceeded checks s
    r :: transfer_calls C exceeded n r.checks r.dev

/-! ## Vocabulary of the specification -/

/-- The B/W plane: bytes `[0, L/2)` of the buffer. -/
def plane_BW (s : EPaperInkplate2) : List Nat :=
  s.buffer_.take (s.buffer_length_ / 2)

/-- The red plane: bytes `[L/2, L)` of the buffer. -/
def plane_RED (s : EPaperInkplate2) : List Nat :=
  s.buffer_.drop (s.buffer_length_ / 2)

/-- What reaches the panel, one item per byte: a command byte or a data byte. -/
inductive Item where
  | cmd (b : Nat)
  | byte (b : Nat)
deriving DecidableEq

/-- The items one event puts on the wire; framing and delays carry no byte. -/
def Event.items : Event → List Item
  | Event.command b => [Item.cmd b]
  | Event.data b => [Item.byte b]
  | Event.write_array bytes => bytes.map Item.byte
  | _ => []

/-- The ordered stream of items of an event log. -/
def wire (log : List Event) : List Item :=
  log.flatMap Event.items

/-- The concatenation of all flushed chunks of an event log. -/
def payload : List Event → List Nat
  | [] => []
  | Event.write_array bytes :: rest => bytes ++ payload rest
  | _ :: rest => payload rest

/-- The events of a run of framed writes, one frame per chunk. -/
def frames (chunks : List (List Nat)) : List Event :=
  chunks.flatMap flush_events

/-- A list of chunks cuts `xs` into pieces of exactly `C` bytes followed, when `C` does
not divide the length, by one shorter non-empty piece. -/
def Chunked (C : Nat) (xs : List Nat) (chunks : List (List Nat)) : Prop :=
  chunks.flatten = xs ∧ (∀ c ∈ chunks, 1 ≤ c.length ∧ c.length ≤ C) ∧
    ∀ c ∈ chunks.dropLast, c.length = C

/-- The bytes `[a, b)` of a buffer. -/
def slice (buf : List Nat) (a b : Nat) : List Nat :=
  (buf.take b).drop a

/-- What one run of the `while` loop does, from state `st` to outcome `r`, in terms of
the list `chunks` of full chunks it flushed: the log grows by their frames; every one
has `C` bytes; the bytes held before plus the bytes read equal the bytes flushed plus
the bytes still held; the index moves forward, not past `limit`; one deadline test was
evaluated per flush; a normal exit happens at `limit` with every test negative; a
`return false` happens right after a flush, with nothing held, on the first positive
test; fewer than `C` bytes are held at exit if fewer than `C` were held at entry. -/
def LoopPost (C : Nat) (exceeded : Nat → Bool) (buf : List Nat) (limit : Nat)
    (st : LoopState) (r : Bool × LoopState) (chunks : List (List Nat)) : Prop :=
  r.2.log = st.log ++ frames chunks ∧
  (∀ c ∈ chunks, c.length = C) ∧
  st.bytes_to_send ++ slice buf st.current_data_index_ r.2.current_data_index_ =
    chunks.flatten ++ r.2.bytes_to_send ∧
  st.current_data_index_ ≤ r.2.current_data_index_ ∧
  r.2.current_data_index_ ≤ limit ∧
  r.2.checks = st.checks + chunks.length ∧
  (r.1 = false → r.2.current_data_index_ = limit ∧
    ∀ i, i < chunks.length → exceeded (st.checks + i) = false) ∧
  (r.1 = true → r.2.bytes_to_send = [] ∧ chunks ≠ [] ∧
    exceeded (st.checks + (chunks.length - 1)) = true ∧
    ∀ i, i + 1 < chunks.length → exceeded (st.checks + i) = false) ∧
  (st.bytes_to_send.length < C → r.2.bytes_to_send.length < C)

/-- The stream of one complete transfer: command 0x10, the B/W plane, command 0x13, the
red plane. -/
def full_stream (buf : List Nat) : List Item :=
  [Item.cmd 0x10] ++ (buf.take (buf.length / 2)).map Item.byte ++ [Item.cmd 0x13] ++
    (buf.drop (buf.length / 2)).map Item.byte

/-- The part of `full_stream` that is on the wire when a transfer stands at cursor `c`:
nothing at 0; command 0x10 and `c` bytes up to the boundary `L/2` (the command 0x13 is
still to come at `c = L/2`); past the boundary also the command 0x13 and the red bytes
up to `c`. -/
def sent_before (buf : List Nat) (c : Nat) : List Item :=
  if c = 0 then []
  else if c ≤ buf.length / 2 then [Item.cmd 0x10] ++ (buf.take c).map Item.byte
  else [Item.cmd 0x10] ++ (buf.take (buf.length / 2)).map Item.byte ++ [Item.cmd 0x13] ++
    (slice buf (buf.length / 2) c).map Item.byte

/-- The buffer length of the data model, `L = 2 * ceil(W*H/8)`. -/
def framebuffer_length_spec (width height : Nat) : Nat :=
  2 * ((width * height + 7) / 8)

/-- The chunks of `xs` for chunk size `C`: piece `i` is `xs[i*C .. i*C + C)`, cut at the
end of `xs`; there are `ceil(|xs| / C)` pieces. -/
def chunks (C : Nat) (xs : List Nat) : List (List Nat) :=
  (List.range ((xs.length + C - 1) / C)).map fun i => (xs.drop (i * C)).take C

/-- The events of all invocations of a list of calls, in order. -/
def calls_log (calls : List Call) : List Event :=
  calls.flatMap Call.log

/-! ## Power and refresh sequencing, `clear` -/

/-- The method `EPaperInkplate2::power_on` (lines 12-18): a log line, nothing else.  Like
the three methods below it returns the driver and the events it emitted. -/
def power_on (s : EPaperInkplate2) : EPaperInkplate2 × List Event :=
  (s, [])

/-- The method `EPaperInkplate2::power_off` (lines 20-25). -/
def power_off (s : EPaperInkplate2) : EPaperInkplate2 × List Event :=
  (s, [Event.command 0x50, Event.data 0xF7, Event.command 0x02])

/-- The method `EPaperInkplate2::refresh_screen` (lines 27-37). -/
def refresh_screen (s : EPaperInkplate2) : EPaperInkplate2 × List Event :=
  (s, [Event.command 0x11, Event.data 0x00, Event.command 0x12, Event.delay_us 500])

/-- The method `EPaperInkplate2::deep_sleep` (lines 39-43). -/
def deep_sleep (s : EPaperInkplate2) : EPaperInkplate2 × List Event :=
  (s, [Event.command 0x07, Event.data 0xA5])

/-- The method `EPaperInkplate2::clear` (lines 79-82): `fill(COLOR_ON)`.  The constant
`COLOR_ON` of the host framework is not part of the sources and is a parameter. -/
def clear (COLOR_ON : Color) (s : EPaperInkplate2) : EPaperInkplate2 :=
  fill s COLOR_ON

/-! ## Vocabulary for framing -/

/-- A run of bytes that lies in one plane of the buffer: bytes `[a, b)` with `b ≤ L/2`
(B/W plane) or `L/2 ≤ a` (red plane). -/
def InOnePlane (buf : List Nat) (bytes : List Nat) : Prop :=
  ∃ a b, bytes = slice buf a b ∧ a ≤ b ∧ b ≤ buf.length ∧
    (b ≤ buf.length / 2 ∨ buf.length / 2 ≤ a)

/-- An event log that consists of commands and of complete data frames only: every bulk
write stands between a `start_data` right before it and an `end_data` right after it,
carries between 1 and `C` bytes that satisfy `P`, and no `start_data` is left without
its `end_data`. -/
inductive FramedLog (C : Nat) (P : List Nat → Prop) : List Event → Prop
  | nil : FramedLog C P []
  | command (b : Nat) (rest : List Event) :
      FramedLog C P rest → FramedLog C P (Event.command b :: rest)
  | frame (bytes : List Nat) (rest : List Event) :
      1 ≤ bytes.length → bytes.length ≤ C → P bytes → FramedLog C P rest →
      FramedLog C P (Event.start_data :: Event.write_array bytes :: Event.end_data :: rest)

/-! ## Bit-level facts about one buffer cell -/

theorem testBit_or_cell (b k j : Nat) (hk : k < 8) (hj : j < 8) :
    ((b ||| (1 <<< k) % 256) % 256).testBit j = (b.testBit j || decide (k = j)) := by
  have h256 : (256 : Nat) = 2 ^ 8 := by norm_num
  have hlt : 2 ^ k < 2 ^ 8 := Nat.pow_lt_pow_right (by norm_num) hk
  rw [Nat.one_shiftLeft, h256, Nat.mod_eq_of_lt hlt, Nat.testBit_mod_two_pow,
    Nat.testBit_or, Nat.testBit_two_pow]
  simp [hj]

theorem testBit_and_not_cell (b k j : Nat) (hk : k < 8) (hj : j < 8) :
    ((b &&& (0xFFFFFFFF - (1 <<< k) % 256)) % 256).testBit j =
      (b.testBit j && !decide (k = j)) := by
  have h256 : (256 : Nat) = 2 ^ 8 := by norm_num
  have hlt : 2 ^ k < 2 ^ 8 := Nat.pow_lt_pow_right (by norm_num) hk
  have hlt32 : 2 ^ k < 2 ^ 32 := lt_trans hlt (by norm_num)
  have hc : 0xFFFFFFFF - 2 ^ k = 2 ^ 32 - (2 ^ k + 1) := by omega
  rw [Nat.one_shiftLeft, h256, Nat.mod_eq_of_lt hlt, Nat.testBit_mod_two_pow,
    Nat.testBit_and, hc, Nat.testBit_two_pow_sub_succ hlt32, Nat.testBit_two_pow]
  have hj32 : j < 32 := by omega
  simp [hj, hj32]

theorem pixel_bit_eq (x : Int) : pixel_bit x = 7 - x.toNat % 8 := by
  unfold pixel_bit
  have h : x.toNat &&& 7 = x.toNat % 8 := Nat.and_pow_two_sub_one_eq_mod x.toNat 3
  simp only [h]
  omega

theorem or_byte_eq (buf : List Nat) (i mask : Nat) (h : i < buf.length) :
    or_byte buf i mask = some (buf.set i ((buf.getD i 0 ||| mask) % 256)) := by
  simp [or_byte, h, List.getD_eq_getElem?_getD]

theorem and_not_byte_eq (buf : List Nat) (i mask : Nat) (h : i < buf.length) :
    and_not_byte buf i mask =
      some (buf.set i ((buf.getD i 0 &&& (0xFFFFFFFF - mask)) % 256)) := by
  simp [and_not_byte, h, List.getD_eq_getElem?_getD]

/-- The cell value `draw_absolute_pixel_internal` stores in the B/W half. -/
theorem draw_in_range (s : EPaperInkplate2) (x y : Int) (color : Color)
    (hx0 : 0 ≤ x) (hxw : x < (s.width_ : Int)) (hy0 : 0 ≤ y) (hyh : y < (s.height_ : Int))
    (hpos : pixel_pos s.width_ x y < s.buffer_length_ / 2) :
    ∃ v1 v2 : Nat,
      draw_absolute_pixel_internal s x y color =
        some { s with
          buffer_ := (s.buffer_.set (pixel_pos s.width_ x y) v1).set
                       (pixel_pos s.width_ x y + s.buffer_length_ / 2) v2 } ∧
      v1 = (if is_black color
        then (s.buffer_.getD (pixel_pos s.width_ x y) 0 ||| pixel_mask x) % 256
        else (s.buffer_.getD (pixel_pos s.width_ x y) 0 &&&
          (0xFFFFFFFF - pixel_mask x)) % 256) ∧
      v2 = (if is_red color
        then (s.buffer_.getD (pixel_pos s.width_ x y + s.buffer_length_ / 2) 0 &&&
          (0xFFFFFFFF - pixel_mask x)) % 256
        else (s.buffer_.getD (pixel_pos s.width_ x y + s.buffer_length_ / 2) 0 |||
          pixel_mask x) % 256) := by
  have hL : s.buffer_.length = s.buffer_length_ := rfl
  have h1 : pixel_pos s.width_ x y < s.buffer_.length := by omega
  have h2 : pixel_pos s.width_ x y + s.buffer_length_ / 2 < s.buffer_.length := by omega
  have hne : pixel_pos s.width_ x y ≠ pixel_pos s.width_ x y + s.buffer_length_ / 2 := by
    omega
  have hguard : ¬ (x ≥ (s.width_ : Int) ∨ y ≥ (s.height_ : Int) ∨ x < 0 ∨ y < 0) := by
    omega
  refine ⟨_, _, ?_, rfl, rfl⟩
  unfold draw_absolute_pixel_internal
  rw [if_neg hguard]
  cases hb : is_black color <;> cases hr : is_red color <;>
    simp [or_byte_eq, and_not_byte_eq, h1, h2, List.getD_eq_getElem?_getD,
      List.getElem?_set, hne]

theorem pixel_bit_lt (x : Int) : pixel_bit x < 8 := by
  rw [pixel_bit_eq]; omega

theorem pixel_bit_spec (x : Int) (hx0 : 0 ≤ x) : pixel_bit x = 7 - (x % 8).toNat := by
  rw [pixel_bit_eq]; omega

/-- The two plane bits of a pixel after `draw_absolute_pixel_internal`, for an in-range
pixel whose byte `(x + y*width)/8` lies in the B/W plane and for every value of the
modelled colour record: the B/W bit at that byte, bit `7 - (x mod 8)`, is 1 exactly when
the flag is off, and the RED bit is 0 exactly when red > 200, green < 100 and blue < 100
(lines 98-109 test the two conditions one after the other). -/
theorem draw_pixel_table (s : EPaperInkplate2) (x y : Int) (color : Color)
    (hx0 : 0 ≤ x) (hxw : x < (s.width_ : Int)) (hy0 : 0 ≤ y) (hyh : y < (s.height_ : Int))
    (hpos : ((x + y * (s.width_ : Int)) / 8).toNat < s.buffer_length_ / 2) :
    ∃ (s' : EPaperInkplate2) (bw rd : Nat),
      draw_absolute_pixel_internal s x y color = some s' ∧
      (plane_BW s')[((x + y * (s.width_ : Int)) / 8).toNat]? = some bw ∧
      (plane_RED s')[((x + y * (s.width_ : Int)) / 8).toNat]? = some rd ∧
      (bw.testBit (7 - (x % 8).toNat), rd.testBit (7 - (x % 8).toNat)) =
        (if color.is_on = false then
           (if color.red > 200 ∧ color.green < 100 ∧ color.blue < 100 then (true, false)
            else (true, true))
         else if color.red > 200 ∧ color.green < 100 ∧ color.blue < 100 then (false, false)
         else (false, true)) := by
  obtain ⟨v1, v2, hdraw, hv1, hv2⟩ := draw_in_range s x y color hx0 hxw hy0 hyh hpos
  have hL : s.buffer_.length = s.buffer_length_ := rfl
  have hp : pixel_pos s.width_ x y = ((x + y * (s.width_ : Int)) / 8).toNat := rfl
  rw [hp] at hdraw hv1 hv2
  generalize ((x + y * (s.width_ : Int)) / 8).toNat = pos at *
  have hb := pixel_bit_lt x
  rw [← pixel_bit_spec x hx0]
  refine ⟨_, v1, v2, hdraw, ?_, ?_, ?_⟩
  · simp only [plane_BW, EPaperInkplate2.buffer_length_, List.length_set]
    rw [List.getElem?_take_of_lt (by omega), List.getElem?_set]
    have : ¬ pos + s.buffer_length_ / 2 = pos := by omega
    simp only [EPaperInkplate2.buffer_length_] at this
    simp only [this, if_false]
    rw [List.getElem?_set]
    simp; omega
  · simp only [plane_RED, EPaperInkplate2.buffer_length_, List.length_set]
    rw [List.getElem?_drop, List.getElem?_set]
    have h1 : pos + s.buffer_.length / 2 = s.buffer_.length / 2 + pos := by omega
    simp [h1]; omega
  · subst hv1 hv2
    unfold pixel_mask
    have hred : is_red color = true ↔
        color.red > 200 ∧ color.green < 100 ∧ color.blue < 100 := by
      simp [is_red, and_assoc]
    have hor := fun b => testBit_or_cell b (pixel_bit x) (pixel_bit x) hb hb
    have hand := fun b => testBit_and_not_cell b (pixel_bit x) (pixel_bit x) hb hb
    cases hon : color.is_on <;>
      by_cases hr : color.red > 200 ∧ color.green < 100 ∧ color.blue < 100 <;>
      simp [is_black, hon, hred, hr, hor, hand]

/-- Witness of `draw_pixel_table`: pixel (2, 1) of an 8 x 2 panel, drawn white. -/
theorem draw_pixel_table_witness :
    ((0 : Int) ≤ 2 ∧ (2 : Int) < ((8 : Nat) : Int) ∧ (0 : Int) ≤ 1 ∧
      (1 : Int) < ((2 : Nat) : Int) ∧
      ((2 + 1 * ((8 : Nat) : Int)) / 8).toNat <
        EPaperInkplate2.buffer_length_ ⟨8, 2, [0, 0, 0, 0], 0⟩ / 2) ∧
    ∃ (s' : EPaperInkplate2) (bw rd : Nat),
      draw_absolute_pixel_internal ⟨8, 2, [0, 0, 0, 0], 0⟩ 2 1 ⟨255, 255, 255, true⟩ =
        some s' ∧
      (plane_BW s')[((2 + 1 * ((8 : Nat) : Int)) / 8).toNat]? = some bw ∧
      (plane_RED s')[((2 + 1 * ((8 : Nat) : Int)) / 8).toNat]? = some rd ∧
      (bw.testBit (7 - ((2 : Int) % 8).toNat), rd.testBit (7 - ((2 : Int) % 8).toNat)) =
        (if true = false then
           (if 255 > 200 ∧ 255 < 100 ∧ 255 < 100 then (true, false) else (true, true))
         else if 255 > 200 ∧ 255 < 100 ∧ 255 < 100 then (false, false)
         else (false, true)) :=
  ⟨by decide,
    draw_pixel_table ⟨8, 2, [0, 0, 0, 0], 0⟩ 2 1 ⟨255, 255, 255, true⟩
      (by decide) (by decide) (by decide) (by decide) (by decide)⟩

/-- The colour table of `draw_pixel` for every in-range pixel whose byte lies in the B/W
plane and every colour whose on/off flag is off only when the red test fails.  The host
framework computes `is_on()` from the channels (off only when they are all zero), so this
covers every colour the driver can be handed: black gives B/W=1, RED=1; red gives
B/W=0, RED=0; white gives B/W=0, RED=1, with black tested first as in `fill`. -/
theorem draw_pixel_table_in_plane (s : EPaperInkplate2) (x y : Int) (color : Color)
    (hx0 : 0 ≤ x) (hxw : x < (s.width_ : Int)) (hy0 : 0 ≤ y) (hyh : y < (s.height_ : Int))
    (hpos : ((x + y * (s.width_ : Int)) / 8).toNat < s.buffer_length_ / 2)
    (hflag : color.is_on = false →
      ¬ (color.red > 200 ∧ color.green < 100 ∧ color.blue < 100)) :
    ∃ (s' : EPaperInkplate2) (bw rd : Nat),
      draw_absolute_pixel_internal s x y color = some s' ∧
      (plane_BW s')[((x + y * (s.width_ : Int)) / 8).toNat]? = some bw ∧
      (plane_RED s')[((x + y * (s.width_ : Int)) / 8).toNat]? = some rd ∧
      (bw.testBit (7 - (x % 8).toNat), rd.testBit (7 - (x % 8).toNat)) =
        (if color.is_on = false then (true, true)
         else if color.red > 200 ∧ color.green < 100 ∧ color.blue < 100 then (false, false)
         else (false, true)) := by
  obtain ⟨s', bw, rd, h1, h2, h3, h4⟩ := draw_pixel_table s x y color hx0 hxw hy0 hyh hpos
  refine ⟨s', bw, rd, h1, h2, h3, ?_⟩
  rw [h4]
  by_cases hon : color.is_on = false
  · simp [hon, hflag hon]
  · simp [hon]

/-- Witness of `draw_pixel_table_in_plane`: pixel (2, 1) of an 8 x 2 panel, drawn red. -/
theorem draw_pixel_table_in_plane_witness :
    ((0 : Int) ≤ 2 ∧ (2 : Int) < ((8 : Nat) : Int) ∧ (0 : Int) ≤ 1 ∧
      (1 : Int) < ((2 : Nat) : Int) ∧
      ((2 + 1 * ((8 : Nat) : Int)) / 8).toNat <
        EPaperInkplate2.buffer_length_ ⟨8, 2, [0, 0, 0xFF, 0xFF], 0⟩ / 2) ∧
    ∃ (s' : EPaperInkplate2) (bw rd : Nat),
      draw_absolute_pixel_internal ⟨8, 2, [0, 0, 0xFF, 0xFF], 0⟩ 2 1 ⟨255, 0, 0, true⟩ =
        some s' ∧
      (plane_BW s')[((2 + 1 * ((8 : Nat) : Int)) / 8).toNat]? = some bw ∧
      (plane_RED s')[((2 + 1 * ((8 : Nat) : Int)) / 8).toNat]? = some rd ∧
      (bw.testBit (7 - ((2 : Int) % 8).toNat), rd.testBit (7 - ((2 : Int) % 8).toNat)) =
        (if true = false then (true, true)
         else if 255 > 200 ∧ 0 < 100 ∧ 0 < 100 then (false, false)
         else (false, true)) :=
  ⟨by decide,
    draw_pixel_table_in_plane ⟨8, 2, [0, 0, 0xFF, 0xFF], 0⟩ 2 1 ⟨255, 0, 0, true⟩
      (by decide) (by decide) (by decide) (by decide) (by decide) (by decide)⟩

/-- A buffer of two bytes has a B/W plane and a red plane of one byte each: neither has a
byte at index 1. -/
theorem planes_of_two_bytes (s : EPaperInkplate2) (h : s.buffer_.length = 2) :
    (plane_BW s)[1]? = none ∧ (plane_RED s)[1]? = none := by
  constructor
  · apply List.getElem?_eq_none
    simp [plane_BW, EPaperInkplate2.buffer_length_, h]
  · apply List.getElem?_eq_none
    simp [plane_RED, EPaperInkplate2.buffer_length_, h]

/-- C2, evaluated on the last pixel of a 3 x 3 panel cleared to white, drawn red: the
constructor sets `L = 2`, so each plane has one byte, and the in-range pixel (2, 2) has
its byte at index `(2 + 2*3)/8 = 1`.  Neither plane has a byte 1 to re-read, whatever the
buffer holds.  The B/W store clears bit 5 of `buffer_[1]`, the only byte of plane_RED
(the RED bit of pixel (2, 0)), the RED store addresses `buffer_[2]`, outside the buffer,
and no resulting buffer carries the table entry B/W=0, RED=0 at byte 1 of its planes. -/
theorem draw_pixel_table_fails_3x3 :
    constructor_buffer_length 3 3 = 2 ∧
    (fill ⟨3, 3, [0x00, 0x00], 0⟩ ⟨255, 255, 255, true⟩).buffer_ = [0x00, 0xFF] ∧
    ((0 : Int) ≤ 2 ∧ (2 : Int) < ((3 : Nat) : Int)) ∧
    ((2 + 2 * ((3 : Nat) : Int)) / 8).toNat = 1 ∧
    (∀ s : EPaperInkplate2, s.buffer_.length = 2 →
      (plane_BW s)[((2 + 2 * ((3 : Nat) : Int)) / 8).toNat]? = none ∧
      (plane_RED s)[((2 + 2 * ((3 : Nat) : Int)) / 8).toNat]? = none) ∧
    and_not_byte [0x00, 0xFF] (pixel_pos 3 2 2) (pixel_mask 2) = some [0x00, 0xDF] ∧
    and_not_byte [0x00, 0xDF] (pixel_pos 3 2 2 + 2 / 2) (pixel_mask 2) = none ∧
    draw_absolute_pixel_internal ⟨3, 3, [0x00, 0xFF], 0⟩ 2 2 ⟨255, 0, 0, true⟩ = none ∧
    ¬ ∃ (s' : EPaperInkplate2) (bw rd : Nat),
      draw_absolute_pixel_internal ⟨3, 3, [0x00, 0xFF], 0⟩ 2 2 ⟨255, 0, 0, true⟩ = some s' ∧
      (plane_BW s')[((2 + 2 * ((3 : Nat) : Int)) / 8).toNat]? = some bw ∧
      (plane_RED s')[((2 + 2 * ((3 : Nat) : Int)) / 8).toNat]? = some rd ∧
      (bw.testBit (7 - ((2 : Int) % 8).toNat), rd.testBit (7 - ((2 : Int) % 8).toNat)) =
        (false, false) := by
  have hdraw : draw_absolute_pixel_internal ⟨3, 3, [0x00, 0xFF], 0⟩ 2 2 ⟨255, 0, 0, true⟩ =
      none := by decide
  have hpos : ((2 + 2 * ((3 : Nat) : Int)) / 8).toNat = 1 := by decide
  refine ⟨by decide, by decide, by decide, hpos, ?_, by decide, by decide, hdraw, ?_⟩
  · intro s hs
    rw [hpos]
    exact planes_of_two_bytes s hs
  · rintro ⟨s', bw, rd, h, _⟩
    rw [hdraw] at h
    cases h

/-! ## `fill` -/

theorem fill_range_length (v : Nat) (n i : Nat) (buf : List Nat) :
    (fill_range v n i buf).length = buf.length := by
  induction n generalizing i buf with
  | zero => rfl
  | succ n ih => simp [fill_range, ih]

theorem fill_range_getElem? (v : Nat) (n i : Nat) (buf : List Nat) (j : Nat) :
    (fill_range v n i buf)[j]? =
      if i ≤ j ∧ j < i + n ∧ j < buf.length then some v else buf[j]? := by
  induction n generalizing i buf with
  | zero =>
    have : ¬ (i ≤ j ∧ j < i + 0 ∧ j < buf.length) := by omega
    rw [if_neg this, fill_range]
  | succ n ih =>
    simp only [fill_range, ih, List.length_set, List.getElem?_set]
    by_cases h1 : i + 1 ≤ j ∧ j < i + 1 + n ∧ j < buf.length
    · have h2 : i ≤ j ∧ j < i + (n + 1) ∧ j < buf.length := by omega
      simp [h1, h2]
    · by_cases h3 : i = j
      · subst h3
        by_cases h4 : i < buf.length
        · have h2 : i ≤ i ∧ i < i + (n + 1) ∧ i < buf.length := by omega
          simp [h1, h2, h4]
        · have h2 : ¬ (i ≤ i ∧ i < i + (n + 1) ∧ i < buf.length) := by omega
          have h5 : buf[i]? = none := List.getElem?_eq_none (by omega)
          simp [h1, h2, h4, h5]
      · have h2 : ¬ (i ≤ j ∧ j < i + (n + 1) ∧ j < buf.length) := by omega
        simp [h1, h2, h3]

theorem fill_buffer (s : EPaperInkplate2) (color : Color) :
    (fill s color).buffer_ =
      List.replicate (s.buffer_length_ / 2) (fill_bw_byte color) ++
        List.replicate (s.buffer_length_ - s.buffer_length_ / 2) (fill_red_byte color) := by
  apply List.ext_getElem?
  intro j
  simp only [fill, fill_range_getElem?, fill_range_length, EPaperInkplate2.buffer_length_,
    List.getElem?_append, List.length_replicate, List.getElem?_replicate]
  by_cases h1 : j < s.buffer_.length / 2
  · have h2 : ¬ (s.buffer_.length / 2 ≤ j ∧
        j < s.buffer_.length / 2 + (s.buffer_.length - s.buffer_.length / 2) ∧
        j < s.buffer_.length) := by omega
    have h3 : 0 ≤ j ∧ j < 0 + (s.buffer_.length / 2 - 0) ∧ j < s.buffer_.length := by omega
    simp [h1, h2, h3]
  · by_cases h4 : j < s.buffer_.length
    · have h2 : s.buffer_.length / 2 ≤ j ∧
          j < s.buffer_.length / 2 + (s.buffer_.length - s.buffer_.length / 2) ∧
          j < s.buffer_.length := by omega
      have h5 : j - s.buffer_.length / 2 < s.buffer_.length - s.buffer_.length / 2 := by
        omega
      simp [h1, h2, h5]
    · have h2 : ¬ (s.buffer_.length / 2 ≤ j ∧
          j < s.buffer_.length / 2 + (s.buffer_.length - s.buffer_.length / 2) ∧
          j < s.buffer_.length) := by omega
      have h3 : ¬ (0 ≤ j ∧ j < 0 + (s.buffer_.length / 2 - 0) ∧ j < s.buffer_.length) := by
        omega
      have h5 : ¬ j - s.buffer_.length / 2 < s.buffer_.length - s.buffer_.length / 2 := by
        omega
      have h6 : s.buffer_[j]? = none := List.getElem?_eq_none (by omega)
      simp [h1, h2, h3, h5, h6]

theorem fill_planes (s : EPaperInkplate2) (color : Color) :
    (fill s color).buffer_length_ = s.buffer_length_ ∧
    plane_BW (fill s color) = List.replicate (s.buffer_length_ / 2) (fill_bw_byte color) ∧
    plane_RED (fill s color) =
      List.replicate (s.buffer_length_ - s.buffer_length_ / 2) (fill_red_byte color) := by
  have hlen : (fill s color).buffer_length_ = s.buffer_length_ := by
    simp [EPaperInkplate2.buffer_length_, fill_buffer]
    omega
  refine ⟨hlen, ?_, ?_⟩
  · rw [plane_BW, hlen, fill_buffer, List.take_left']
    simp
  · rw [plane_RED, hlen, fill_buffer, List.drop_left']
    simp

/-- C3: after `fill(colour)` the buffer keeps its length `L`; plane_BW (indices
`[0, L/2)`) and plane_RED (indices `[L/2, L)`) consist of one repeated byte each: 0xFF and
0xFF when the flag is off (black), 0x00 and 0x00 when the flag is on and red > 200,
green < 100, blue < 100 (red), 0x00 and 0xFF otherwise (white). -/
theorem fill_sets_every_byte (s : EPaperInkplate2) (color : Color) :
    (fill s color).buffer_length_ = s.buffer_length_ ∧
    plane_BW (fill s color) =
      List.replicate (s.buffer_length_ / 2)
        (if color.is_on = false then 0xFF
         else if color.red > 200 ∧ color.green < 100 ∧ color.blue < 100 then 0x00
         else 0x00) ∧
    plane_RED (fill s color) =
      List.replicate (s.buffer_length_ - s.buffer_length_ / 2)
        (if color.is_on = false then 0xFF
         else if color.red > 200 ∧ color.green < 100 ∧ color.blue < 100 then 0x00
         else 0xFF) := by
  obtain ⟨hlen, hbw, hrd⟩ := fill_planes s color
  have hred : is_red color = true ↔
      color.red > 200 ∧ color.green < 100 ∧ color.blue < 100 := by
    simp [is_red, and_assoc]
  refine ⟨hlen, ?_, ?_⟩
  · rw [hbw]
    cases hon : color.is_on <;>
      by_cases hr : color.red > 200 ∧ color.green < 100 ∧ color.blue < 100 <;>
      simp [fill_bw_byte, is_black, hon, hred, hr]
  · rw [hrd]
    cases hon : color.is_on <;>
      by_cases hr : color.red > 200 ∧ color.green < 100 ∧ color.blue < 100 <;>
      simp [fill_red_byte, is_black, hon, hred, hr]

/-! ## `draw_absolute_pixel_internal` -/

/-- C5: for `x < 0`, `y < 0`, `x >= width` or `y >= height`, `draw_pixel` returns
normally and leaves the driver, hence the buffer byte for byte, as it was. -/
theorem draw_pixel_out_of_range (s : EPaperInkplate2) (x y : Int) (color : Color)
    (h : x < 0 ∨ y < 0 ∨ x ≥ (s.width_ : Int) ∨ y ≥ (s.height_ : Int)) :
    draw_absolute_pixel_internal s x y color = some s := by
  unfold draw_absolute_pixel_internal
  rw [if_pos]
  omega

/-- Witness of `draw_pixel_out_of_range`: `x = -1` on an 8 x 2 panel. -/
theorem draw_pixel_out_of_range_witness :
    ((-1 : Int) < 0 ∨ (0 : Int) < 0 ∨ (-1 : Int) ≥ ((8 : Nat) : Int) ∨
      (0 : Int) ≥ ((2 : Nat) : Int)) ∧
    draw_absolute_pixel_internal ⟨8, 2, [1, 2, 3, 4], 0⟩ (-1) 0 ⟨0, 0, 0, false⟩ =
      some ⟨8, 2, [1, 2, 3, 4], 0⟩ :=
  ⟨by decide, draw_pixel_out_of_range ⟨8, 2, [1, 2, 3, 4], 0⟩ (-1) 0 ⟨0, 0, 0, false⟩
    (by decide)⟩

/-- The frame of `draw_pixel` on a pixel whose byte lies in the B/W plane: the driver
keeps its geometry and cursor, the buffer keeps its length, every byte other than
`pos` and `pos + L/2` is unchanged, and in those two bytes every bit other than
`7 - (x mod 8)` is unchanged. -/
theorem draw_pixel_frame (s : EPaperInkplate2) (x y : Int) (color : Color)
    (hx0 : 0 ≤ x) (hxw : x < (s.width_ : Int)) (hy0 : 0 ≤ y) (hyh : y < (s.height_ : Int))
    (hpos : ((x + y * (s.width_ : Int)) / 8).toNat < s.buffer_length_ / 2) :
    ∃ s' : EPaperInkplate2,
      draw_absolute_pixel_internal s x y color = some s' ∧
      s'.width_ = s.width_ ∧ s'.height_ = s.height_ ∧
      s'.current_data_index_ = s.current_data_index_ ∧
      s'.buffer_.length = s.buffer_.length ∧
      (∀ i : Nat, i ≠ ((x + y * (s.width_ : Int)) / 8).toNat →
        i ≠ ((x + y * (s.width_ : Int)) / 8).toNat + s.buffer_length_ / 2 →
        s'.buffer_[i]? = s.buffer_[i]?) ∧
      (∀ i j : Nat, j < 8 → j ≠ 7 - (x % 8).toNat →
        (s'.buffer_.getD i 0).testBit j = (s.buffer_.getD i 0).testBit j) := by
  obtain ⟨v1, v2, hdraw, hv1, hv2⟩ := draw_in_range s x y color hx0 hxw hy0 hyh hpos
  have hL : s.buffer_.length = s.buffer_length_ := rfl
  have hp : pixel_pos s.width_ x y = ((x + y * (s.width_ : Int)) / 8).toNat := rfl
  rw [hp] at hdraw hv1 hv2
  generalize ((x + y * (s.width_ : Int)) / 8).toNat = pos at *
  have hb := pixel_bit_lt x
  rw [← pixel_bit_spec x hx0]
  refine ⟨_, hdraw, rfl, rfl, rfl, by simp, ?_, ?_⟩
  · intro i h1 h2
    simp only [List.getElem?_set]
    simp [Ne.symm h1, Ne.symm h2]
  · intro i j hj hne
    have hor := fun b => testBit_or_cell b (pixel_bit x) j hb hj
    have hand := fun b => testBit_and_not_cell b (pixel_bit x) j hb hj
    have hne' : ¬ pixel_bit x = j := fun h => hne h.symm
    have hv1bit : v1.testBit j = (s.buffer_.getD pos 0).testBit j := by
      subst hv1
      unfold pixel_mask
      cases is_black color <;> simp [hor, hand, hne']
    have hv2bit : v2.testBit j =
        (s.buffer_.getD (pos + s.buffer_length_ / 2) 0).testBit j := by
      subst hv2
      unfold pixel_mask
      cases is_red color <;> simp [hor, hand, hne']
    simp only [List.getD_eq_getElem?_getD] at hv1bit hv2bit ⊢
    by_cases h2 : pos + s.buffer_length_ / 2 = i
    · subst h2
      have h3 : pos + s.buffer_length_ / 2 < s.buffer_.length := by omega
      simp [List.getElem?_set, h3, hv2bit]
    · by_cases h1 : pos = i
      · subst h1
        have h3 : pos < s.buffer_.length := by omega
        simp [List.getElem?_set, h2, h3, hv1bit]
      · simp [List.getElem?_set, h1, h2]

/-- C4, evaluated on the last pixel of a 3 x 3 panel: the constructor sets `L = 2`, so
`L/2 = 1`; pixel (2, 2) has `pos = 1`, the B/W write lands in byte 1, which belongs to
plane_RED, and the RED write addresses byte 2, outside the buffer. -/
theorem draw_pixel_frame_fails_3x3 :
    constructor_buffer_length 3 3 = 2 ∧
    pixel_pos 3 2 2 = 1 ∧
    pixel_mask 2 = 0x20 ∧
    or_byte [0x00, 0x00] (pixel_pos 3 2 2) (pixel_mask 2) = some [0x00, 0x20] ∧
    or_byte [0x00, 0x20] (pixel_pos 3 2 2 + 2 / 2) (pixel_mask 2) = none ∧
    draw_absolute_pixel_internal ⟨3, 3, [0x00, 0x00], 0⟩ 2 2 ⟨0, 0, 0, false⟩ = none := by
  decide

/-! ## One bit per pixel -/

/-- When the width is a multiple of 8, two in-range pixels with the same byte and bit
location are the same pixel. -/
theorem pixel_location_injective (width : Nat) (h8 : 8 ∣ width) (x1 y1 x2 y2 : Int)
    (hx1 : 0 ≤ x1) (hx1w : x1 < (width : Int)) (hy1 : 0 ≤ y1)
    (hx2 : 0 ≤ x2) (hx2w : x2 < (width : Int)) (hy2 : 0 ≤ y2)
    (hpos : pixel_pos width x1 y1 = pixel_pos width x2 y2)
    (hbit : pixel_bit x1 = pixel_bit x2) : x1 = x2 ∧ y1 = y2 := by
  obtain ⟨k, rfl⟩ := h8
  rw [pixel_bit_eq, pixel_bit_eq] at hbit
  unfold pixel_pos at hpos
  have e1 : y1 * ((8 * k : Nat) : Int) = 8 * (y1 * (k : Int)) := by push_cast; ring
  have e2 : y2 * ((8 * k : Nat) : Int) = 8 * (y2 * (k : Int)) := by push_cast; ring
  rw [e1, e2] at hpos
  have hm1 : 0 ≤ y1 * (k : Int) := mul_nonneg hy1 (Int.ofNat_nonneg k)
  have hm2 : 0 ≤ y2 * (k : Int) := mul_nonneg hy2 (Int.ofNat_nonneg k)
  have hk : (0 : Int) < (k : Int) := by
    have : (0 : Int) < ((8 * k : Nat) : Int) := lt_of_le_of_lt hx1 hx1w
    push_cast at this
    omega
  push_cast at hx1w hx2w
  have hlin : x1 + 8 * (y1 * (k : Int)) = x2 + 8 * (y2 * (k : Int)) := by
    generalize y1 * (k : Int) = m1 at *
    generalize y2 * (k : Int) = m2 at *
    omega
  have hy : y1 = y2 := by
    rcases lt_trichotomy y1 y2 with h | h | h
    · exfalso
      have : (y1 + 1) * (k : Int) ≤ y2 * (k : Int) :=
        mul_le_mul_of_nonneg_right (by omega) (le_of_lt hk)
      nlinarith
    · exact h
    · exfalso
      have : (y2 + 1) * (k : Int) ≤ y1 * (k : Int) :=
        mul_le_mul_of_nonneg_right (by omega) (le_of_lt hk)
      nlinarith
  subst hy
  exact ⟨by omega, rfl⟩

/-- C9, evaluated on a panel of width 4: pixels (0, 0) and (0, 1) are both in range and
are written at the same byte 0 and bit 7, so a white (0, 1) drawn after a black (0, 0)
erases it. -/
theorem pixel_location_collision_width_4 :
    constructor_buffer_length 4 2 = 2 ∧
    ((0 : Int), (0 : Int)) ≠ ((0 : Int), (1 : Int)) ∧
    (pixel_pos 4 0 0, pixel_bit 0) = (0, 7) ∧
    (pixel_pos 4 0 1, pixel_bit 0) = (0, 7) ∧
    draw_absolute_pixel_internal ⟨4, 2, [0x00, 0x00], 0⟩ 0 0 ⟨0, 0, 0, false⟩ =
      some ⟨4, 2, [0x80, 0x80], 0⟩ ∧
    draw_absolute_pixel_internal ⟨4, 2, [0x80, 0x80], 0⟩ 0 1 ⟨255, 255, 255, true⟩ =
      some ⟨4, 2, [0x00, 0x80], 0⟩ := by
  decide

/-! ## Buffer length set by the constructor -/

theorem constructor_buffer_length_even (width height : Nat) :
    constructor_buffer_length width height % 2 = 0 := by
  unfold constructor_buffer_length
  omega

theorem constructor_buffer_length_le_spec (width height : Nat) :
    constructor_buffer_length width height ≤ framebuffer_length_spec width height := by
  unfold constructor_buffer_length framebuffer_length_spec
  omega

theorem constructor_buffer_length_eq_spec_iff (width height : Nat) :
    constructor_buffer_length width height = framebuffer_length_spec width height ↔
      8 ∣ width * height := by
  unfold constructor_buffer_length framebuffer_length_spec
  omega

/-- C10, evaluated on a 3 x 3 panel: the constructor sets `L = (3*3/8)*2 = 2`, while
`2 * ceil(3*3/8) = 4`; each half then has one byte for nine pixels. -/
theorem constructor_buffer_length_3x3 :
    constructor_buffer_length 3 3 = 2 ∧ framebuffer_length_spec 3 3 = 4 ∧
    3 * 3 > 8 * (constructor_buffer_length 3 3 / 2) := by
  decide

/-! ## Slices of the buffer -/

theorem slice_self (buf : List Nat) (a : Nat) : slice buf a a = [] := by
  unfold slice
  apply List.drop_eq_nil_of_le
  simp

theorem slice_zero (buf : List Nat) (b : Nat) : slice buf 0 b = buf.take b := by
  simp [slice]

theorem slice_length_end (buf : List Nat) (a : Nat) :
    slice buf a buf.length = buf.drop a := by
  simp [slice]

theorem length_slice (buf : List Nat) (a b : Nat) (hb : b ≤ buf.length) :
    (slice buf a b).length = b - a := by
  simp [slice, Nat.min_eq_left hb]

theorem slice_cons (buf : List Nat) (a b : Nat) (h1 : a < b) (h2 : a < buf.length) :
    slice buf a b = buf.getD a 0 :: slice buf (a + 1) b := by
  unfold slice
  have h3 : a < (buf.take b).length := by simp; omega
  rw [List.drop_eq_getElem_cons h3]
  simp [List.getD_eq_getElem?_getD, List.getElem_take, h2]

theorem take_append_slice (buf : List Nat) (a b : Nat) (h : a ≤ b) :
    buf.take a ++ slice buf a b = buf.take b := by
  unfold slice
  have h1 : buf.take a = (buf.take b).take a := by
    rw [List.take_take, Nat.min_eq_left h]
  rw [h1, List.take_append_drop]

theorem slice_append_slice (buf : List Nat) (a b c : Nat) (h1 : a ≤ b) (h2 : b ≤ c)
    (hb : b ≤ buf.length) : slice buf a b ++ slice buf b c = slice buf a c := by
  have h3 : a - (List.take b buf).length = 0 := by
    rw [List.length_take, Nat.min_eq_left hb]; omega
  have h4 : slice buf a c = List.drop a (buf.take b ++ slice buf b c) := by
    rw [take_append_slice buf b c h2]; rfl
  rw [h4, List.drop_append_eq_append_drop, h3, List.drop_zero]
  rfl

/-! ## The `while` loop of `transfer_data` -/

theorem frames_nil : frames [] = [] := rfl

theorem frames_cons (c : List Nat) (cs : List (List Nat)) :
    frames (c :: cs) = flush_events c ++ frames cs := by
  simp [frames]

theorem frames_append (cs ds : List (List Nat)) :
    frames (cs ++ ds) = frames cs ++ frames ds := by
  simp [frames]

theorem transfer_loop_exit (C : Nat) (exceeded : Nat → Bool) (buf : List Nat) (limit n : Nat)
    (st : LoopState) (h : ¬ st.current_data_index_ < limit) :
    transfer_loop C exceeded buf limit n st = (false, st) := by
  cases n with
  | zero => rfl
  | succ n => simp [transfer_loop, h]

theorem transfer_loop_flush_return (C : Nat) (exceeded : Nat → Bool) (buf : List Nat)
    (limit n : Nat) (st : LoopState) (h : st.current_data_index_ < limit)
    (hfull : (st.bytes_to_send ++ [buf.getD st.current_data_index_ 0]).length = C)
    (he : exceeded st.checks = true) :
    transfer_loop C exceeded buf limit (n + 1) st =
      (true, { current_data_index_ := st.current_data_index_ + 1, bytes_to_send := [],
               log := st.log ++
                 flush_events (st.bytes_to_send ++ [buf.getD st.current_data_index_ 0]),
               checks := st.checks + 1 }) := by
  rw [transfer_loop]
  simp only [h, hfull, he, if_true]

theorem transfer_loop_flush_continue (C : Nat) (exceeded : Nat → Bool) (buf : List Nat)
    (limit n : Nat) (st : LoopState) (h : st.current_data_index_ < limit)
    (hfull : (st.bytes_to_send ++ [buf.getD st.current_data_index_ 0]).length = C)
    (he : exceeded st.checks = false) :
    transfer_loop C exceeded buf limit (n + 1) st =
      transfer_loop C exceeded buf limit n
        { current_data_index_ := st.current_data_index_ + 1, bytes_to_send := [],
          log := st.log ++
            flush_events (st.bytes_to_send ++ [buf.getD st.current_data_index_ 0]),
          checks := st.checks + 1 } := by
  rw [transfer_loop]
  simp only [h, hfull, he, if_true]
  simp

theorem transfer_loop_accumulate (C : Nat) (exceeded : Nat → Bool) (buf : List Nat)
    (limit n : Nat) (st : LoopState) (h : st.current_data_index_ < limit)
    (hfull : ¬ (st.bytes_to_send ++ [buf.getD st.current_data_index_ 0]).length = C) :
    transfer_loop C exceeded buf limit (n + 1) st =
      transfer_loop C exceeded buf limit n
        { current_data_index_ := st.current_data_index_ + 1,
          bytes_to_send := st.bytes_to_send ++ [buf.getD st.current_data_index_ 0],
          log := st.log, checks := st.checks } := by
  rw [transfer_loop]
  simp only [h, hfull, if_true, if_false]

theorem transfer_loop_spec (C : Nat) (exceeded : Nat → Bool) (buf : List Nat) (limit : Nat)
    (hlim : limit ≤ buf.length) (n : Nat) (st : LoopState)
    (hn : st.current_data_index_ + n = limit) :
    ∃ chunks, LoopPost C exceeded buf limit st
      (transfer_loop C exceeded buf limit n st) chunks := by
  induction n generalizing st with
  | zero =>
    refine ⟨[], ?_⟩
    have h : ¬ st.current_data_index_ < limit := by omega
    rw [transfer_loop_exit C exceeded buf limit 0 st h]
    simp only [LoopPost, frames_nil, List.append_nil, slice_self, List.flatten_nil,
      List.nil_append, List.length_nil, Nat.add_zero]
    refine ⟨trivial, by simp, trivial, le_refl _, by omega, trivial, ?_, by simp, id⟩
    intro _
    exact ⟨by omega, by simp⟩
  | succ n ih =>
    have h : st.current_data_index_ < limit := by omega
    have hlen : st.current_data_index_ < buf.length := by omega
    by_cases hfull : (st.bytes_to_send ++ [buf.getD st.current_data_index_ 0]).length = C
    · cases he : exceeded st.checks with
      | true =>
        rw [transfer_loop_flush_return C exceeded buf limit n st h hfull he]
        refine ⟨[st.bytes_to_send ++ [buf.getD st.current_data_index_ 0]], ?_⟩
        simp only [LoopPost]
        refine ⟨by simp [frames], by simpa using hfull, ?_, by omega, by omega, by simp,
          by simp, ?_, ?_⟩
        · rw [slice_cons buf _ _ (Nat.lt_succ_self _) hlen, slice_self]
          simp
        · intro _
          refine ⟨trivial, by simp, by simpa using he, ?_⟩
          intro i hi
          simp at hi
        · intro _
          simp only [List.length_append, List.length_singleton] at hfull
          simp only [List.length_nil]
          omega
      | false =>
        rw [transfer_loop_flush_continue C exceeded buf limit n st h hfull he]
        obtain ⟨cs, h1, h2, h3, h4, h5, h6, h7, h8, h9⟩ :=
          ih { current_data_index_ := st.current_data_index_ + 1, bytes_to_send := [],
               log := st.log ++
                 flush_events (st.bytes_to_send ++ [buf.getD st.current_data_index_ 0]),
               checks := st.checks + 1 } (by simp; omega)
        simp only at h1 h2 h3 h4 h5 h6 h7 h8 h9
        refine ⟨(st.bytes_to_send ++ [buf.getD st.current_data_index_ 0]) :: cs, ?_⟩
        simp only [LoopPost]
        refine ⟨?_, ?_, ?_, by omega, h5, ?_, ?_, ?_, ?_⟩
        · rw [h1, frames_cons, List.append_assoc]
        · intro c hc
          rcases List.mem_cons.mp hc with rfl | hc
          · exact hfull
          · exact h2 c hc
        · rw [slice_cons buf _ _ (by omega) hlen, List.flatten_cons, List.append_assoc,
            ← h3]
          simp
        · rw [h6, List.length_cons]; omega
        · intro hr
          obtain ⟨ha, hb⟩ := h7 hr
          refine ⟨ha, ?_⟩
          intro i hi
          cases i with
          | zero => simpa using he
          | succ i =>
            have := hb i (by simpa using hi)
            rw [← this]; congr 1; omega
        · intro hr
          obtain ⟨ha, hb, hc, hd⟩ := h8 hr
          refine ⟨ha, by simp, ?_, ?_⟩
          · have hpos : 0 < cs.length := List.length_pos.mpr hb
            rw [← hc]; congr 1; simp only [List.length_cons]; omega
          · intro i hi
            cases i with
            | zero => simpa using he
            | succ i =>
              have := hd i (by simpa using hi)
              rw [← this]; congr 1; omega
        · intro _
          exact h9 (by
            have : 0 < C := by rw [← hfull]; simp
            simpa using this)
    · rw [transfer_loop_accumulate C exceeded buf limit n st h hfull]
      obtain ⟨cs, h1, h2, h3, h4, h5, h6, h7, h8, h9⟩ :=
        ih { current_data_index_ := st.current_data_index_ + 1,
             bytes_to_send := st.bytes_to_send ++ [buf.getD st.current_data_index_ 0],
             log := st.log, checks := st.checks } (by simp; omega)
      simp only at h1 h2 h3 h4 h5 h6 h7 h8 h9
      refine ⟨cs, ?_⟩
      simp only [LoopPost]
      refine ⟨h1, h2, ?_, by omega, h5, h6, h7, h8, ?_⟩
      · rw [slice_cons buf _ _ (by omega) hlen, ← h3]
        simp
      · intro hlt
        apply h9
        simp only [List.length_append, List.length_singleton] at hfull ⊢
        omega

/-! ## Streams of an event log -/

theorem wire_append (l1 l2 : List Event) : wire (l1 ++ l2) = wire l1 ++ wire l2 := by
  simp [wire]

theorem wire_flush_events (c : List Nat) : wire (flush_events c) = c.map Item.byte := by
  simp [wire, flush_events, Event.items]

theorem wire_frames (cs : List (List Nat)) : wire (frames cs) = cs.flatten.map Item.byte := by
  induction cs with
  | nil => rfl
  | cons c cs ih => rw [frames_cons, wire_append, wire_flush_events, ih]; simp

theorem payload_append (l1 l2 : List Event) :
    payload (l1 ++ l2) = payload l1 ++ payload l2 := by
  induction l1 with
  | nil => rfl
  | cons e l1 ih => cases e <;> simp [payload, ih]

theorem payload_flush_events (c : List Nat) : payload (flush_events c) = c := by
  simp [payload, flush_events]

theorem payload_frames (cs : List (List Nat)) : payload (frames cs) = cs.flatten := by
  induction cs with
  | nil => rfl
  | cons c cs ih => rw [frames_cons, payload_append, payload_flush_events, ih]; simp

theorem flush_remaining_spec (st : LoopState) :
    (flush_remaining st).current_data_index_ = st.current_data_index_ ∧
    (flush_remaining st).bytes_to_send = [] ∧
    (flush_remaining st).checks = st.checks ∧
    wire (flush_remaining st).log = wire st.log ++ st.bytes_to_send.map Item.byte ∧
    payload (flush_remaining st).log = payload st.log ++ st.bytes_to_send := by
  unfold flush_remaining
  by_cases h : st.bytes_to_send.length ≠ 0
  · simp [h, wire_append, wire_flush_events, payload_append, payload_flush_events]
  · have h' : st.bytes_to_send = [] := by
      simpa using h
    simp [h']

theorem transfer_boundary_spec (half : Nat) (st : LoopState) :
    (transfer_boundary half st).current_data_index_ = st.current_data_index_ ∧
    (transfer_boundary half st).bytes_to_send = [] ∧
    (transfer_boundary half st).checks = st.checks ∧
    wire (transfer_boundary half st).log =
      wire st.log ++ st.bytes_to_send.map Item.byte ++
        (if st.current_data_index_ = half then [Item.cmd 0x13] else []) ∧
    payload (transfer_boundary half st).log = payload st.log ++ st.bytes_to_send := by
  obtain ⟨h1, h2, h3, h4, h5⟩ := flush_remaining_spec st
  unfold transfer_boundary
  by_cases h : st.current_data_index_ = half
  · have hw : wire [Event.command 0x13] = [Item.cmd 0x13] := rfl
    have hq : payload [Event.command 0x13] = [] := rfl
    simp [h1, h2, h3, h4, h5, h, wire_append, payload_append, hw, hq]
  · simp [h1, h2, h3, h4, h5, h]

/-- The stream view of one run of the loop. -/
theorem transfer_loop_stream (C : Nat) (exceeded : Nat → Bool) (buf : List Nat) (limit : Nat)
    (st : LoopState) (r : Bool × LoopState) (chunks : List (List Nat))
    (hlim : limit ≤ buf.length) (hp : LoopPost C exceeded buf limit st r chunks) :
    wire r.2.log ++ r.2.bytes_to_send.map Item.byte =
      wire st.log ++ st.bytes_to_send.map Item.byte ++
        (slice buf st.current_data_index_ r.2.current_data_index_).map Item.byte ∧
    payload r.2.log ++ r.2.bytes_to_send =
      payload st.log ++ st.bytes_to_send ++
        slice buf st.current_data_index_ r.2.current_data_index_ ∧
    (r.1 = true → st.current_data_index_ + C ≤
      r.2.current_data_index_ + st.bytes_to_send.length) := by
  obtain ⟨h1, h2, h3, h4, h5, h6, h7, h8, h9⟩ := hp
  refine ⟨?_, ?_, ?_⟩
  · rw [h1, wire_append, wire_frames, List.append_assoc, ← List.map_append, ← h3,
      List.append_assoc, ← List.map_append]
  · rw [h1, payload_append, payload_frames, List.append_assoc, ← h3, List.append_assoc]
  · intro hr
    obtain ⟨ha, hb, _, _⟩ := h8 hr
    rw [ha, List.append_nil] at h3
    have hl := congrArg List.length h3
    rw [List.length_append, length_slice buf _ _ (by omega)] at hl
    obtain ⟨c, cs, rfl⟩ := List.exists_cons_of_ne_nil hb
    have hc := h2 c (List.mem_cons_self _ _)
    simp only [List.flatten_cons, List.length_append] at hl
    omega

/-! ## One invocation of `transfer_data` -/

/-- The three ways through `transfer_data`. -/
theorem transfer_data_cases (C : Nat) (exceeded : Nat → Bool) (k : Nat) (s : EPaperInkplate2)
    (r1 r2 : Bool × LoopState)
    (hr1 : transfer_loop C exceeded s.buffer_ (s.buffer_length_ / 2)
      (s.buffer_length_ / 2 - s.current_data_index_) (transfer_begin s k) = r1)
    (hr2 : transfer_loop C exceeded s.buffer_ s.buffer_length_
      (s.buffer_length_ -
        (transfer_boundary (s.buffer_length_ / 2) r1.2).current_data_index_)
      (transfer_boundary (s.buffer_length_ / 2) r1.2) = r2) :
    (r1.1 = true ∧ transfer_data C exceeded k s =
      { dev := { s with current_data_index_ := r1.2.current_data_index_ },
        log := r1.2.log, checks := r1.2.checks, result := false }) ∨
    (r1.1 = false ∧ r2.1 = true ∧ transfer_data C exceeded k s =
      { dev := { s with current_data_index_ := r2.2.current_data_index_ },
        log := r2.2.log, checks := r2.2.checks, result := false }) ∨
    (r1.1 = false ∧ r2.1 = false ∧ transfer_data C exceeded k s =
      { dev := { s with current_data_index_ := 0 },
        log := (flush_remaining r2.2).log, checks := (flush_remaining r2.2).checks,
        result := true }) := by
  subst hr1 hr2
  unfold transfer_data
  cases h1 : (transfer_loop C exceeded s.buffer_ (s.buffer_length_ / 2)
      (s.buffer_length_ / 2 - s.current_data_index_) (transfer_begin s k)).1
  · cases h2 : (transfer_loop C exceeded s.buffer_ s.buffer_length_
        (s.buffer_length_ -
          (transfer_boundary (s.buffer_length_ / 2)
            (transfer_loop C exceeded s.buffer_ (s.buffer_length_ / 2)
              (s.buffer_length_ / 2 - s.current_data_index_)
              (transfer_begin s k)).2).current_data_index_)
        (transfer_boundary (s.buffer_length_ / 2)
          (transfer_loop C exceeded s.buffer_ (s.buffer_length_ / 2)
            (s.buffer_length_ / 2 - s.current_data_index_) (transfer_begin s k)).2)).1
    · right; right
      simp [h1, h2]
    · right; left
      simp [h1, h2]
  · left
    simp [h1]

/-- The stream view of one run of the loop entered with an empty chunk buffer. -/
theorem transfer_loop_from_empty (C : Nat) (exceeded : Nat → Bool) (buf : List Nat)
    (limit : Nat) (hlim : limit ≤ buf.length) (st : LoopState) (r : Bool × LoopState)
    (hbytes : st.bytes_to_send = []) (hidx : st.current_data_index_ ≤ limit)
    (hr : transfer_loop C exceeded buf limit (limit - st.current_data_index_) st = r) :
    st.current_data_index_ ≤ r.2.current_data_index_ ∧
    r.2.current_data_index_ ≤ limit ∧
    wire r.2.log ++ r.2.bytes_to_send.map Item.byte =
      wire st.log ++ (slice buf st.current_data_index_ r.2.current_data_index_).map Item.byte ∧
    payload r.2.log ++ r.2.bytes_to_send =
      payload st.log ++ slice buf st.current_data_index_ r.2.current_data_index_ ∧
    (r.1 = true → r.2.bytes_to_send = [] ∧
      st.current_data_index_ + C ≤ r.2.current_data_index_) ∧
    (r.1 = false → r.2.current_data_index_ = limit) := by
  obtain ⟨cs, hp⟩ := transfer_loop_spec C exceeded buf limit hlim
    (limit - st.current_data_index_) st (by omega)
  rw [hr] at hp
  obtain ⟨hw, hq, hprog⟩ := transfer_loop_stream C exceeded buf limit st r cs hlim hp
  obtain ⟨h1, h2, h3, h4, h5, h6, h7, h8, h9⟩ := hp
  rw [hbytes] at hw hq hprog
  simp only [List.map_nil, List.append_nil, List.length_nil, Nat.add_zero] at hw hq hprog
  exact ⟨h4, h5, hw, hq, fun h => ⟨(h8 h).1, hprog h⟩, fun h => (h7 h).1⟩

theorem sent_before_bw (buf : List Nat) (c : Nat) (h0 : 0 < c) (h : c ≤ buf.length / 2) :
    sent_before buf c = [Item.cmd 0x10] ++ (buf.take c).map Item.byte := by
  have : c ≠ 0 := by omega
  simp [sent_before, this, h]

theorem sent_before_red (buf : List Nat) (c : Nat) (h : buf.length / 2 < c) :
    sent_before buf c =
      [Item.cmd 0x10] ++ (buf.take (buf.length / 2)).map Item.byte ++ [Item.cmd 0x13] ++
        (slice buf (buf.length / 2) c).map Item.byte := by
  have h1 : c ≠ 0 := by omega
  have h2 : ¬ c ≤ buf.length / 2 := by omega
  simp [sent_before, h1, h2]

theorem full_stream_eq (buf : List Nat) :
    full_stream buf =
      [Item.cmd 0x10] ++ (buf.take (buf.length / 2)).map Item.byte ++ [Item.cmd 0x13] ++
        (slice buf (buf.length / 2) buf.length).map Item.byte := by
  rw [slice_length_end]; rfl

/-- The start of `transfer_data`: after the optional command 0x10 the wire holds the
command and the bytes before the cursor, for a cursor in the B/W plane. -/
theorem transfer_begin_wire (s : EPaperInkplate2) (k : Nat)
    (h : s.current_data_index_ ≤ s.buffer_.length / 2) :
    sent_before s.buffer_ s.current_data_index_ ++ wire (transfer_begin s k).log =
      [Item.cmd 0x10] ++ (s.buffer_.take s.current_data_index_).map Item.byte := by
  by_cases h0 : s.current_data_index_ = 0
  · simp [transfer_begin, sent_before, h0, wire, Event.items]
  · rw [sent_before_bw _ _ (by omega) h]
    simp [transfer_begin, h0, wire]

theorem transfer_begin_payload (s : EPaperInkplate2) (k : Nat) :
    payload (transfer_begin s k).log = [] := by
  by_cases h0 : s.current_data_index_ = 0 <;> simp [transfer_begin, h0, payload]

/-- The B/W phase of one invocation: either it returns from inside the first loop, at
least `C` bytes further and still inside the B/W plane, or it reaches the second loop
with the command 0x13 on the wire and nothing held back. -/
theorem transfer_phase_bw (C : Nat) (hC : 1 ≤ C) (exceeded : Nat → Bool) (k : Nat)
    (s : EPaperInkplate2) (hc : s.current_data_index_ ≤ s.buffer_length_)
    (r1 : Bool × LoopState)
    (hr1 : transfer_loop C exceeded s.buffer_ (s.buffer_length_ / 2)
      (s.buffer_length_ / 2 - s.current_data_index_) (transfer_begin s k) = r1) :
    (r1.1 = true →
      s.current_data_index_ + C ≤ r1.2.current_data_index_ ∧
      r1.2.current_data_index_ ≤ s.buffer_length_ / 2 ∧
      sent_before s.buffer_ s.current_data_index_ ++ wire r1.2.log =
        sent_before s.buffer_ r1.2.current_data_index_ ∧
      s.buffer_.take s.current_data_index_ ++ payload r1.2.log =
        s.buffer_.take r1.2.current_data_index_) ∧
    (r1.1 = false →
      (transfer_boundary (s.buffer_length_ / 2) r1.2).bytes_to_send = [] ∧
      s.buffer_length_ / 2 ≤
        (transfer_boundary (s.buffer_length_ / 2) r1.2).current_data_index_ ∧
      s.current_data_index_ ≤
        (transfer_boundary (s.buffer_length_ / 2) r1.2).current_data_index_ ∧
      (transfer_boundary (s.buffer_length_ / 2) r1.2).current_data_index_ ≤
        s.buffer_length_ ∧
      sent_before s.buffer_ s.current_data_index_ ++
          wire (transfer_boundary (s.buffer_length_ / 2) r1.2).log =
        [Item.cmd 0x10] ++ (s.buffer_.take (s.buffer_length_ / 2)).map Item.byte ++
          [Item.cmd 0x13] ++
          (slice s.buffer_ (s.buffer_length_ / 2)
            (transfer_boundary (s.buffer_length_ / 2) r1.2).current_data_index_).map
            Item.byte ∧
      s.buffer_.take s.current_data_index_ ++
          payload (transfer_boundary (s.buffer_length_ / 2) r1.2).log =
        s.buffer_.take
          (transfer_boundary (s.buffer_length_ / 2) r1.2).current_data_index_) := by
  have hL : s.buffer_length_ = s.buffer_.length := rfl
  obtain ⟨b1, b2, b3, b4, b5⟩ := transfer_boundary_spec (s.buffer_length_ / 2) r1.2
  by_cases hph : s.current_data_index_ ≤ s.buffer_length_ / 2
  · obtain ⟨h1, h2, h3, h4, h5, h6⟩ := transfer_loop_from_empty C exceeded s.buffer_
      (s.buffer_length_ / 2) (by omega) (transfer_begin s k) r1 rfl hph hr1
    have hbi : (transfer_begin s k).current_data_index_ = s.current_data_index_ := rfl
    rw [hbi] at h1 h3 h4 h5
    have hbw := transfer_begin_wire s k (by rw [← hL]; exact hph)
    have hbp := transfer_begin_payload s k
    rw [hbp, List.nil_append] at h4
    constructor
    · intro hr
      obtain ⟨hb, hprog⟩ := h5 hr
      rw [hb, List.map_nil, List.append_nil] at h3
      rw [hb, List.append_nil] at h4
      refine ⟨hprog, h2, ?_, ?_⟩
      · rw [h3, ← List.append_assoc, hbw, sent_before_bw _ _ (by omega) (by rw [← hL]; exact h2),
          List.append_assoc, ← List.map_append, take_append_slice _ _ _ h1]
      · rw [h4, take_append_slice _ _ _ h1]
    · intro hr
      have hi := h6 hr
      rw [b1, b4, b5, hi]
      refine ⟨b2, le_refl _, hph, by omega, ?_, ?_⟩
      · rw [hi] at h3
        rw [if_pos rfl, h3, slice_self, ← List.append_assoc, ← List.append_assoc, hbw,
          List.append_assoc [Item.cmd 16], ← List.map_append, take_append_slice _ _ _ hph]
        simp
      · rw [hi] at h4
        rw [h4, take_append_slice _ _ _ hph]
  · have hex : ¬ (transfer_begin s k).current_data_index_ < s.buffer_length_ / 2 := by
      show ¬ s.current_data_index_ < s.buffer_length_ / 2
      omega
    rw [transfer_loop_exit C exceeded s.buffer_ _ _ _ hex] at hr1
    have h0 : s.current_data_index_ ≠ 0 := by omega
    have hne : s.current_data_index_ ≠ s.buffer_length_ / 2 := by omega
    have hr1a : r1.1 = false := by rw [← hr1]
    have hr1i : r1.2.current_data_index_ = s.current_data_index_ := by rw [← hr1]; rfl
    have hr1b : r1.2.bytes_to_send = [] := by rw [← hr1]; rfl
    have hr1l : r1.2.log = [] := by rw [← hr1]; simp [transfer_begin, h0]
    constructor
    · intro hr
      rw [hr1a] at hr
      exact absurd hr (by decide)
    · intro _
      rw [b1, b4, b5, hr1i, hr1b, hr1l, if_neg hne]
      refine ⟨b2, by omega, le_refl _, hc, ?_, ?_⟩
      · rw [sent_before_red _ _ (by rw [← hL]; omega)]
        simp [wire, hL]
      · simp [payload]

/-- One invocation of `transfer_data` entered with a cursor in `[0, L]`: the buffer and
the geometry are untouched; a complete invocation leaves the cursor at 0 and completes
the full stream; an incomplete one moves the cursor at least `C` bytes forward, not past
`L`, and extends the wire exactly up to the new cursor. -/
theorem transfer_data_spec (C : Nat) (hC : 1 ≤ C) (exceeded : Nat → Bool) (k : Nat)
    (s : EPaperInkplate2) (hc : s.current_data_index_ ≤ s.buffer_length_) :
    (transfer_data C exceeded k s).dev.buffer_ = s.buffer_ ∧
    (transfer_data C exceeded k s).dev.width_ = s.width_ ∧
    (transfer_data C exceeded k s).dev.height_ = s.height_ ∧
    ((transfer_data C exceeded k s).result = true →
      (transfer_data C exceeded k s).dev.current_data_index_ = 0 ∧
      sent_before s.buffer_ s.current_data_index_ ++
        wire (transfer_data C exceeded k s).log = full_stream s.buffer_ ∧
      s.buffer_.take s.current_data_index_ ++ payload (transfer_data C exceeded k s).log =
        s.buffer_) ∧
    ((transfer_data C exceeded k s).result = false →
      s.current_data_index_ + C ≤ (transfer_data C exceeded k s).dev.current_data_index_ ∧
      (transfer_data C exceeded k s).dev.current_data_index_ ≤ s.buffer_length_ ∧
      sent_before s.buffer_ s.current_data_index_ ++
          wire (transfer_data C exceeded k s).log =
        sent_before s.buffer_ (transfer_data C exceeded k s).dev.current_data_index_ ∧
      s.buffer_.take s.current_data_index_ ++ payload (transfer_data C exceeded k s).log =
        s.buffer_.take (transfer_data C exceeded k s).dev.current_data_index_) := by
  have hL : s.buffer_length_ = s.buffer_.length := rfl
  obtain ⟨p1, p2⟩ := transfer_phase_bw C hC exceeded k s hc _ rfl
  rcases transfer_data_cases C exceeded k s _ _ rfl rfl with ⟨h1, heq⟩ | ⟨h1, h2, heq⟩ |
    ⟨h1, h2, heq⟩
  · obtain ⟨q1, q2, q3, q4⟩ := p1 h1
    rw [heq]
    refine ⟨rfl, rfl, rfl, ?_, ?_⟩
    · intro h; simp at h
    · intro _
      exact ⟨q1, le_trans q2 (Nat.div_le_self _ _), q3, q4⟩
  · obtain ⟨q1, q2, q3, q4, q5, q6⟩ := p2 h1
    obtain ⟨e1, e2, e3, e4, e5, e6⟩ := transfer_loop_from_empty C exceeded s.buffer_
      s.buffer_length_ (le_refl _) _ _ q1 q4 rfl
    obtain ⟨eb, eprog⟩ := e5 h2
    rw [eb, List.map_nil, List.append_nil] at e3
    rw [eb, List.append_nil] at e4
    rw [heq]
    refine ⟨rfl, rfl, rfl, ?_, ?_⟩
    · intro h; simp at h
    · intro _
      refine ⟨by simp only; omega, e2, ?_, ?_⟩
      · simp only
        rw [e3, ← List.append_assoc, q5, sent_before_red _ _ (by rw [← hL]; omega),
          List.append_assoc _ (List.map _ _) (List.map _ _), ← List.map_append,
          slice_append_slice _ _ _ _ q2 e1 q4, hL]
      · simp only
        rw [e4, ← List.append_assoc, q6, take_append_slice _ _ _ e1]
  · obtain ⟨q1, q2, q3, q4, q5, q6⟩ := p2 h1
    obtain ⟨e1, e2, e3, e4, e5, e6⟩ := transfer_loop_from_empty C exceeded s.buffer_
      s.buffer_length_ (le_refl _) _ _ q1 q4 rfl
    have ei := e6 h2
    obtain ⟨f1, f2, f3, f4, f5⟩ := flush_remaining_spec
      (transfer_loop C exceeded s.buffer_ s.buffer_length_
        (s.buffer_length_ -
          (transfer_boundary (s.buffer_length_ / 2)
            (transfer_loop C exceeded s.buffer_ (s.buffer_length_ / 2)
              (s.buffer_length_ / 2 - s.current_data_index_)
              (transfer_begin s k)).2).current_data_index_)
        (transfer_boundary (s.buffer_length_ / 2)
          (transfer_loop C exceeded s.buffer_ (s.buffer_length_ / 2)
            (s.buffer_length_ / 2 - s.current_data_index_) (transfer_begin s k)).2)).2
    rw [heq]
    refine ⟨rfl, rfl, rfl, ?_, ?_⟩
    · intro _
      refine ⟨rfl, ?_, ?_⟩
      · simp only
        rw [f4, e3, ei, ← List.append_assoc, q5,
          List.append_assoc _ (List.map _ _) (List.map _ _), ← List.map_append,
          slice_append_slice _ _ _ _ q2 q4 q4, full_stream_eq, hL]
      · simp only
        rw [f5, e4, ei, ← List.append_assoc, q6, take_append_slice _ _ _ q4, hL,
          List.take_length]
    · intro h; simp at h

/-! ## Sequences of invocations -/

theorem transfer_calls_succ (C : Nat) (exceeded : Nat → Bool) (n k : Nat)
    (s : EPaperInkplate2) :
    transfer_calls C exceeded (n + 1) k s =
      transfer_data C exceeded k s ::
        transfer_calls C exceeded n (transfer_data C exceeded k s).checks
          (transfer_data C exceeded k s).dev := rfl

theorem calls_log_cons (r : Call) (rs : List Call) :
    calls_log (r :: rs) = r.log ++ calls_log rs := by
  simp [calls_log]

theorem buffer_length_eq_of_buffer_eq (s t : EPaperInkplate2) (h : t.buffer_ = s.buffer_) :
    t.buffer_length_ = s.buffer_length_ := by
  simp [EPaperInkplate2.buffer_length_, h]

/-- The cursor invariant from any cursor in `[0, L]`. -/
theorem transfer_calls_cursor (C : Nat) (hC : 1 ≤ C) (exceeded : Nat → Bool) (n k : Nat)
    (s : EPaperInkplate2) (hc : s.current_data_index_ ≤ s.buffer_length_) :
    ∀ r ∈ transfer_calls C exceeded n k s,
      r.dev.buffer_ = s.buffer_ ∧
      r.dev.current_data_index_ ≤ s.buffer_length_ ∧
      (r.dev.current_data_index_ = 0 ↔ r.result = true) := by
  induction n generalizing k s with
  | zero => intro r hr; simp [transfer_calls] at hr
  | succ n ih =>
    intro r hr
    obtain ⟨d1, _, _, d4, d5⟩ := transfer_data_spec C hC exceeded k s hc
    have hlen := buffer_length_eq_of_buffer_eq s _ d1
    have hnext : (transfer_data C exceeded k s).dev.current_data_index_ ≤
        (transfer_data C exceeded k s).dev.buffer_length_ := by
      rw [hlen]
      cases hres : (transfer_data C exceeded k s).result with
      | true => rw [(d4 hres).1]; exact Nat.zero_le _
      | false => exact (d5 hres).2.1
    rw [transfer_calls_succ] at hr
    rcases List.mem_cons.mp hr with rfl | hr
    · refine ⟨d1, by rw [← hlen]; exact hnext, ?_⟩
      cases hres : (transfer_data C exceeded k s).result with
      | true => simp [(d4 hres).1]
      | false =>
        have := (d5 hres).1
        constructor
        · intro h0; omega
        · intro h; exact absurd h (by decide)
    · obtain ⟨e1, e2, e3⟩ := ih _ _ hnext r hr
      exact ⟨e1.trans d1, by rw [← hlen]; exact e2, e3⟩

/-- C7: starting from cursor 0, after every invocation of any finite sequence of
`transfer_data` invocations, under any deadline outcomes and any chunk size `C >= 1`, the
cursor lies in `[0, L]`, and it is 0 exactly when that invocation returned complete (an
incomplete invocation never leaves it at 0, a complete one always does); before the
first invocation it is 0 by assumption. -/
theorem transfer_cursor_invariant (C : Nat) (hC : 1 ≤ C) (exceeded : Nat → Bool)
    (n k : Nat) (s : EPaperInkplate2) (h0 : s.current_data_index_ = 0) :
    ∀ r ∈ transfer_calls C exceeded n k s,
      r.dev.buffer_length_ = s.buffer_length_ ∧
      0 ≤ r.dev.current_data_index_ ∧
      r.dev.current_data_index_ ≤ s.buffer_length_ ∧
      (r.dev.current_data_index_ = 0 ↔ r.result = true) := by
  intro r hr
  obtain ⟨e1, e2, e3⟩ := transfer_calls_cursor C hC exceeded n k s (by omega) r hr
  exact ⟨buffer_length_eq_of_buffer_eq s _ e1, Nat.zero_le _, e2, e3⟩

/-- A run of invocations whose last one is the first to return complete puts the full
stream on the wire and every buffer byte into the flushed chunks. -/
theorem transfer_calls_stream (C : Nat) (hC : 1 ≤ C) (exceeded : Nat → Bool) (m k : Nat)
    (s : EPaperInkplate2) (hc : s.current_data_index_ ≤ s.buffer_length_)
    (hres : (transfer_calls C exceeded (m + 1) k s).map Call.result =
      List.replicate m false ++ [true]) :
    sent_before s.buffer_ s.current_data_index_ ++
        wire (calls_log (transfer_calls C exceeded (m + 1) k s)) = full_stream s.buffer_ ∧
    s.buffer_.take s.current_data_index_ ++
        payload (calls_log (transfer_calls C exceeded (m + 1) k s)) = s.buffer_ := by
  induction m generalizing k s with
  | zero =>
    obtain ⟨_, _, _, d4, _⟩ := transfer_data_spec C hC exceeded k s hc
    have hr : (transfer_data C exceeded k s).result = true := by
      simpa [transfer_calls] using hres
    obtain ⟨_, q2, q3⟩ := d4 hr
    simp only [transfer_calls, calls_log, List.flatMap_cons, List.flatMap_nil,
      List.append_nil]
    exact ⟨q2, q3⟩
  | succ m ih =>
    obtain ⟨d1, _, _, _, d5⟩ := transfer_data_spec C hC exceeded k s hc
    rw [transfer_calls_succ] at hres ⊢
    rw [List.map_cons, List.replicate_succ, List.cons_append] at hres
    obtain ⟨hr, hrest⟩ := List.cons.inj hres
    obtain ⟨q1, q2, q3, q4⟩ := d5 hr
    have hlen := buffer_length_eq_of_buffer_eq s _ d1
    obtain ⟨i1, i2⟩ := ih _ _ (by rw [hlen]; exact q2) hrest
    rw [d1] at i1 i2
    rw [calls_log_cons, wire_append, payload_append, ← List.append_assoc,
      ← List.append_assoc, q3, q4]
    exact ⟨i1, i2⟩

/-- From any cursor in `[0, L]` some invocation returns complete, after at most
`(L - cursor) / C` incomplete ones. -/
theorem transfer_calls_complete (C : Nat) (hC : 1 ≤ C) (exceeded : Nat → Bool) (d k : Nat)
    (s : EPaperInkplate2) (hc : s.current_data_index_ ≤ s.buffer_length_)
    (hd : s.buffer_length_ - s.current_data_index_ ≤ d) :
    ∃ m, m * C ≤ s.buffer_length_ - s.current_data_index_ ∧
      (transfer_calls C exceeded (m + 1) k s).map Call.result =
        List.replicate m false ++ [true] := by
  induction d generalizing k s with
  | zero =>
    obtain ⟨_, _, _, _, d5⟩ := transfer_data_spec C hC exceeded k s hc
    refine ⟨0, by simp, ?_⟩
    cases hr : (transfer_data C exceeded k s).result with
    | true => simp [transfer_calls, hr]
    | false =>
      obtain ⟨q1, q2, _, _⟩ := d5 hr
      omega
  | succ d ih =>
    obtain ⟨d1, _, _, _, d5⟩ := transfer_data_spec C hC exceeded k s hc
    cases hr : (transfer_data C exceeded k s).result with
    | true => exact ⟨0, by simp, by simp [transfer_calls, hr]⟩
    | false =>
      obtain ⟨q1, q2, _, _⟩ := d5 hr
      have hlen := buffer_length_eq_of_buffer_eq s _ d1
      obtain ⟨m, hm, hpat⟩ := ih (transfer_data C exceeded k s).checks
        (transfer_data C exceeded k s).dev (by rw [hlen]; exact q2) (by rw [hlen]; omega)
      refine ⟨m + 1, ?_, ?_⟩
      · rw [hlen] at hm
        rw [Nat.succ_mul]
        omega
      · rw [transfer_calls_succ, List.map_cons, hr, hpat, List.replicate_succ,
          List.cons_append]

/-! ## Deadline never exceeded -/

theorem transfer_loop_never_exceeded (C : Nat) (exceeded : Nat → Bool)
    (hex : ∀ i, exceeded i = false) (buf : List Nat) (limit n : Nat) (st : LoopState) :
    (transfer_loop C exceeded buf limit n st).1 = false := by
  induction n generalizing st with
  | zero => rfl
  | succ n ih =>
    by_cases h : st.current_data_index_ < limit
    · by_cases hfull : (st.bytes_to_send ++ [buf.getD st.current_data_index_ 0]).length = C
      · rw [transfer_loop_flush_continue C exceeded buf limit n st h hfull (hex _)]
        exact ih _
      · rw [transfer_loop_accumulate C exceeded buf limit n st h hfull]
        exact ih _
    · rw [transfer_loop_exit C exceeded buf limit _ st h]

theorem transfer_data_never_exceeded (C : Nat) (exceeded : Nat → Bool)
    (hex : ∀ i, exceeded i = false) (k : Nat) (s : EPaperInkplate2) :
    (transfer_data C exceeded k s).result = true ∧
    (transfer_data C exceeded k s).dev = { s with current_data_index_ := 0 } := by
  rcases transfer_data_cases C exceeded k s _ _ rfl rfl with ⟨h1, _⟩ | ⟨_, h2, _⟩ |
    ⟨_, _, heq⟩
  · rw [transfer_loop_never_exceeded C exceeded hex] at h1
    exact absurd h1 (by decide)
  · rw [transfer_loop_never_exceeded C exceeded hex] at h2
    exact absurd h2 (by decide)
  · rw [heq]
    exact ⟨rfl, rfl⟩

/-! ## Resumability -/

/-- C1: for every buffer, chunk size `C >= 1` and deadline outcomes `exceeded`, the
invocations from cursor 0 up to the first one that returns complete (there is one, after
`m` incomplete invocations with `m * C <= L`) put on the wire, concatenated over all
invocations, exactly the stream of one uninterrupted invocation: the command 0x10 once,
before the first byte; the `L/2` bytes of plane_BW in order; the command 0x13 once, after
byte `L/2 - 1` and before byte `L/2`; the bytes of plane_RED in order.  The flushed
chunks, concatenated, are the buffer. -/
theorem transfer_resumable (C : Nat) (hC : 1 ≤ C) (exceeded : Nat → Bool) (k : Nat)
    (s : EPaperInkplate2) (h0 : s.current_data_index_ = 0) :
    ∃ m, m * C ≤ s.buffer_length_ ∧
      (transfer_calls C exceeded (m + 1) k s).map Call.result =
        List.replicate m false ++ [true] ∧
      wire (calls_log (transfer_calls C exceeded (m + 1) k s)) =
        wire (transfer_data C (fun _ => false) 0 s).log ∧
      wire (calls_log (transfer_calls C exceeded (m + 1) k s)) =
        [Item.cmd 0x10] ++ (plane_BW s).map Item.byte ++ [Item.cmd 0x13] ++
          (plane_RED s).map Item.byte ∧
      payload (calls_log (transfer_calls C exceeded (m + 1) k s)) = s.buffer_ := by
  have hc : s.current_data_index_ ≤ s.buffer_length_ := by omega
  obtain ⟨m, hm, hpat⟩ := transfer_calls_complete C hC exceeded _ k s hc (le_refl _)
  obtain ⟨w1, w2⟩ := transfer_calls_stream C hC exceeded m k s hc hpat
  have hsb : sent_before s.buffer_ s.current_data_index_ = [] := by simp [sent_before, h0]
  rw [hsb, List.nil_append] at w1
  rw [h0, List.take_zero, List.nil_append] at w2
  obtain ⟨_, _, _, u4, _⟩ := transfer_data_spec C hC (fun _ => false) 0 s hc
  obtain ⟨_, u2, _⟩ := u4 (transfer_data_never_exceeded C _ (fun _ => rfl) 0 s).1
  rw [hsb, List.nil_append] at u2
  refine ⟨m, by omega, hpat, by rw [w1, u2], ?_, w2⟩
  rw [w1]
  rfl

/-- Witness of `transfer_resumable`: a 4-byte buffer, chunk size 1, deadline exceeded at
every test. -/
theorem transfer_resumable_witness :
    (1 ≤ 1 ∧ EPaperInkplate2.current_data_index_ ⟨8, 2, [1, 2, 3, 4], 0⟩ = 0) ∧
    ∃ m, m * 1 ≤ EPaperInkplate2.buffer_length_ ⟨8, 2, [1, 2, 3, 4], 0⟩ ∧
      (transfer_calls 1 (fun _ => true) (m + 1) 0 ⟨8, 2, [1, 2, 3, 4], 0⟩).map Call.result =
        List.replicate m false ++ [true] ∧
      wire (calls_log (transfer_calls 1 (fun _ => true) (m + 1) 0 ⟨8, 2, [1, 2, 3, 4], 0⟩)) =
        wire (transfer_data 1 (fun _ => false) 0 ⟨8, 2, [1, 2, 3, 4], 0⟩).log ∧
      wire (calls_log (transfer_calls 1 (fun _ => true) (m + 1) 0 ⟨8, 2, [1, 2, 3, 4], 0⟩)) =
        [Item.cmd 0x10] ++ (plane_BW ⟨8, 2, [1, 2, 3, 4], 0⟩).map Item.byte ++
          [Item.cmd 0x13] ++ (plane_RED ⟨8, 2, [1, 2, 3, 4], 0⟩).map Item.byte ∧
      payload (calls_log (transfer_calls 1 (fun _ => true) (m + 1) 0
        ⟨8, 2, [1, 2, 3, 4], 0⟩)) = [1, 2, 3, 4] :=
  ⟨by decide,
    transfer_resumable 1 (by decide) (fun _ => true) 0 ⟨8, 2, [1, 2, 3, 4], 0⟩ (by decide)⟩

/-- Witness of `transfer_cursor_invariant`: three invocations on a 4-byte buffer with
chunk size 1 and the deadline exceeded at every test. -/
theorem transfer_cursor_invariant_witness :
    (1 ≤ 1 ∧ EPaperInkplate2.current_data_index_ ⟨8, 2, [1, 2, 3, 4], 0⟩ = 0) ∧
    ∀ r ∈ transfer_calls 1 (fun _ => true) 3 0 ⟨8, 2, [1, 2, 3, 4], 0⟩,
      r.dev.buffer_length_ = EPaperInkplate2.buffer_length_ ⟨8, 2, [1, 2, 3, 4], 0⟩ ∧
      0 ≤ r.dev.current_data_index_ ∧
      r.dev.current_data_index_ ≤ EPaperInkplate2.buffer_length_ ⟨8, 2, [1, 2, 3, 4], 0⟩ ∧
      (r.dev.current_data_index_ = 0 ↔ r.result = true) :=
  ⟨by decide,
    transfer_cursor_invariant 1 (by decide) (fun _ => true) 3 0 ⟨8, 2, [1, 2, 3, 4], 0⟩
      (by decide)⟩

/-! ## The uninterrupted transfer -/

theorem flush_remaining_log (st : LoopState) :
    (flush_remaining st).log =
      st.log ++ frames (if st.bytes_to_send = [] then [] else [st.bytes_to_send]) := by
  unfold flush_remaining
  by_cases h : st.bytes_to_send = []
  · simp [h, frames]
  · have h' : st.bytes_to_send.length ≠ 0 := by
      intro hh; exact h (List.length_eq_zero.mp hh)
    simp [h, h', frames]

theorem transfer_boundary_log (half : Nat) (st : LoopState) :
    (transfer_boundary half st).log =
      st.log ++ frames (if st.bytes_to_send = [] then [] else [st.bytes_to_send]) ++
        (if st.current_data_index_ = half then [Event.command 0x13] else []) := by
  obtain ⟨h1, _, _, _, _⟩ := flush_remaining_spec st
  unfold transfer_boundary
  by_cases h : st.current_data_index_ = half
  · simp [h1, h, flush_remaining_log]
  · simp [h1, h, flush_remaining_log]

theorem chunked_of_full_and_rest (C : Nat) (hC : 1 ≤ C) (xs : List Nat)
    (cs : List (List Nat)) (rest : List Nat) (hcs : ∀ c ∈ cs, c.length = C)
    (hrest : rest.length < C) (hx : xs = cs.flatten ++ rest) :
    Chunked C xs (cs ++ (if rest = [] then [] else [rest])) := by
  subst hx
  by_cases h : rest = []
  · subst h
    simp only [if_true, List.append_nil]
    refine ⟨rfl, ?_, ?_⟩
    · intro c hc
      rw [hcs c hc]
      exact ⟨hC, le_refl _⟩
    · intro c hc
      exact hcs c (List.mem_of_mem_dropLast hc)
  · simp only [h, if_false]
    refine ⟨by simp, ?_, ?_⟩
    · intro c hc
      rcases List.mem_append.mp hc with hc | hc
      · rw [hcs c hc]
        exact ⟨hC, le_refl _⟩
      · rw [List.mem_singleton.mp hc]
        exact ⟨List.length_pos.mpr h, le_of_lt hrest⟩
    · intro c hc
      rw [List.dropLast_concat] at hc
      exact hcs c hc

theorem chunks_nil (C : Nat) (hC : 1 ≤ C) : chunks C [] = [] := by
  have : (C - 1) / C = 0 := Nat.div_eq_of_lt (by omega)
  simp [chunks, this]

theorem chunks_cons (C : Nat) (hC : 1 ≤ C) (xs : List Nat) (hx : xs ≠ []) :
    chunks C xs = xs.take C :: chunks C (xs.drop C) := by
  have hlen : 0 < xs.length := List.length_pos.mpr hx
  have hcount : (xs.length + C - 1) / C = ((xs.drop C).length + C - 1) / C + 1 := by
    rw [List.length_drop]
    by_cases h : xs.length ≤ C
    · have h1 : xs.length - C = 0 := by omega
      have h2 : (0 + C - 1) / C = 0 := by
        rw [Nat.zero_add]; exact Nat.div_eq_of_lt (by omega)
      rw [h1, h2]
      have h3 : xs.length + C - 1 = (xs.length - 1) + C := by omega
      rw [h3, Nat.add_div_right _ (by omega), Nat.div_eq_of_lt (by omega)]
    · have h3 : xs.length + C - 1 = (xs.length - C + C - 1) + C := by omega
      rw [h3, Nat.add_div_right _ (by omega)]
  unfold chunks
  rw [hcount, List.range_succ_eq_map, List.map_cons, List.map_map]
  congr 1
  · simp
  · apply List.map_congr_left
    intro i _
    simp only [Function.comp, List.drop_drop]
    congr 2
    rw [Nat.succ_mul]
    omega

theorem chunked_eq_chunks (C : Nat) (hC : 1 ≤ C) (cs : List (List Nat)) (xs : List Nat)
    (h : Chunked C xs cs) : cs = chunks C xs := by
  induction cs generalizing xs with
  | nil =>
    obtain ⟨h1, _, _⟩ := h
    rw [← h1, List.flatten_nil, chunks_nil C hC]
  | cons c cs ih =>
    obtain ⟨h1, h2, h3⟩ := h
    have hc := h2 c (List.mem_cons_self _ _)
    have hcne : c ≠ [] := List.length_pos.mp hc.1
    have hx : xs ≠ [] := by
      rw [← h1, List.flatten_cons]
      simp [hcne]
    have htail : Chunked C cs.flatten cs := by
      refine ⟨rfl, fun d hd => h2 d (List.mem_cons_of_mem _ hd), ?_⟩
      intro d hd
      apply h3
      cases cs with
      | nil => simp at hd
      | cons e es =>
        rw [List.dropLast_cons₂]
        exact List.mem_cons_of_mem _ hd
    rw [chunks_cons C hC xs hx]
    cases cs with
    | nil =>
      have hxc : xs = c := by rw [← h1]; simp
      subst hxc
      rw [List.take_of_length_le hc.2, List.drop_of_length_le hc.2, chunks_nil C hC]
    | cons e es =>
      have hcl : c.length = C := h3 c (by rw [List.dropLast_cons₂]; exact List.mem_cons_self _ _)
      have ht : xs.take C = c := by
        rw [← h1, List.flatten_cons, ← hcl, List.take_left']
        rfl
      have hd : xs.drop C = (e :: es).flatten := by
        rw [← h1, List.flatten_cons, ← hcl, List.drop_left']
        rfl
      rw [ht, hd, ← ih _ htail]

theorem chunks_chunked_aux (C : Nat) (hC : 1 ≤ C) (n : Nat) (xs : List Nat)
    (hn : xs.length ≤ n) : Chunked C xs (chunks C xs) := by
  induction n generalizing xs with
  | zero =>
    have hx : xs = [] := List.length_eq_zero.mp (by omega)
    subst hx
    rw [chunks_nil C hC]
    exact ⟨rfl, by simp, by simp⟩
  | succ n ih =>
    by_cases hx : xs = []
    · subst hx
      rw [chunks_nil C hC]
      exact ⟨rfl, by simp, by simp⟩
    · have hlen : 0 < xs.length := List.length_pos.mpr hx
      obtain ⟨i1, i2, i3⟩ := ih (xs.drop C) (by rw [List.length_drop]; omega)
      rw [chunks_cons C hC xs hx]
      refine ⟨?_, ?_, ?_⟩
      · rw [List.flatten_cons, i1, List.take_append_drop]
      · intro c hc
        rcases List.mem_cons.mp hc with rfl | hc
        · rw [List.length_take]
          omega
        · exact i2 c hc
      · intro c hc
        cases hrest : chunks C (xs.drop C) with
        | nil => rw [hrest] at hc; simp at hc
        | cons e es =>
          rw [hrest, List.dropLast_cons₂] at hc
          rcases List.mem_cons.mp hc with rfl | hc
          · have hdne : xs.drop C ≠ [] := by
              intro hd
              rw [hd, chunks_nil C hC] at hrest
              exact absurd hrest (by simp)
            have : 0 < (xs.drop C).length := List.length_pos.mpr hdne
            rw [List.length_drop] at this
            rw [List.length_take]
            omega
          · apply i3
            rw [hrest]
            exact hc

theorem chunks_chunked (C : Nat) (hC : 1 ≤ C) (xs : List Nat) :
    Chunked C xs (chunks C xs) :=
  chunks_chunked_aux C hC xs.length xs (le_refl _)

/-- The log of one invocation from cursor 0 in which the deadline is never exceeded, in
terms of some chunking of each plane. -/
theorem uninterrupted_log_chunked (C : Nat) (hC : 1 ≤ C) (exceeded : Nat → Bool)
    (hex : ∀ i, exceeded i = false) (k : Nat) (s : EPaperInkplate2)
    (h0 : s.current_data_index_ = 0) :
    ∃ bw red : List (List Nat),
      Chunked C (plane_BW s) bw ∧ Chunked C (plane_RED s) red ∧
      (transfer_data C exceeded k s).log =
        [Event.command 0x10] ++ frames bw ++ [Event.command 0x13] ++ frames red ∧
      (transfer_data C exceeded k s).result = true ∧
      (transfer_data C exceeded k s).dev.current_data_index_ = 0 ∧
      (transfer_data C exceeded k s).dev.buffer_ = s.buffer_ := by
  have hL : s.buffer_length_ = s.buffer_.length := rfl
  obtain ⟨r1, hr1⟩ : ∃ r1, transfer_loop C exceeded s.buffer_ (s.buffer_length_ / 2)
      (s.buffer_length_ / 2 - s.current_data_index_) (transfer_begin s k) = r1 := ⟨_, rfl⟩
  obtain ⟨cs1, p1⟩ := transfer_loop_spec C exceeded s.buffer_ (s.buffer_length_ / 2)
    (by omega) (s.buffer_length_ / 2 - s.current_data_index_) (transfer_begin s k)
    (by show s.current_data_index_ + _ = _; omega)
  have n1 := transfer_loop_never_exceeded C exceeded hex s.buffer_ (s.buffer_length_ / 2)
    (s.buffer_length_ / 2 - s.current_data_index_) (transfer_begin s k)
  rw [hr1] at p1 n1
  obtain ⟨a1, a2, a3, a4, a5, a6, a7, a8, a9⟩ := p1
  have ai := (a7 n1).1
  obtain ⟨b1, b2, b3, _, _⟩ := transfer_boundary_spec (s.buffer_length_ / 2) r1.2
  have blog := transfer_boundary_log (s.buffer_length_ / 2) r1.2
  obtain ⟨r2, hr2⟩ : ∃ r2, transfer_loop C exceeded s.buffer_ s.buffer_length_
      (s.buffer_length_ -
        (transfer_boundary (s.buffer_length_ / 2) r1.2).current_data_index_)
      (transfer_boundary (s.buffer_length_ / 2) r1.2) = r2 := ⟨_, rfl⟩
  obtain ⟨cs2, p2⟩ := transfer_loop_spec C exceeded s.buffer_ s.buffer_length_
    (le_refl _) (s.buffer_length_ -
      (transfer_boundary (s.buffer_length_ / 2) r1.2).current_data_index_)
    (transfer_boundary (s.buffer_length_ / 2) r1.2) (by rw [b1, ai]; omega)
  have n2 := transfer_loop_never_exceeded C exceeded hex s.buffer_ s.buffer_length_
    (s.buffer_length_ -
      (transfer_boundary (s.buffer_length_ / 2) r1.2).current_data_index_)
    (transfer_boundary (s.buffer_length_ / 2) r1.2)
  rw [hr2] at p2 n2
  obtain ⟨c1, c2, c3, c4, c5, c6, c7, c8, c9⟩ := p2
  have ci := (c7 n2).1
  rcases transfer_data_cases C exceeded k s r1 r2 hr1 hr2 with ⟨h1, _⟩ | ⟨_, h2, _⟩ |
    ⟨_, _, heq⟩
  · rw [n1] at h1; exact absurd h1 (by decide)
  · rw [n2] at h2; exact absurd h2 (by decide)
  · have hbegin_bytes : (transfer_begin s k).bytes_to_send = [] := rfl
    have hbegin_idx : (transfer_begin s k).current_data_index_ = 0 := h0
    have hbegin_log : (transfer_begin s k).log = [Event.command 0x10] := by
      simp [transfer_begin, h0]
    rw [hbegin_bytes, hbegin_idx, List.nil_append, ai, slice_zero] at a3
    rw [b2, b1, ai, List.nil_append, ci, hL, slice_length_end] at c3
    refine ⟨_, _, chunked_of_full_and_rest C hC _ cs1 _ a2
        (a9 (by rw [hbegin_bytes, List.length_nil]; omega)) a3,
      chunked_of_full_and_rest C hC _ cs2 _ c2
        (c9 (by rw [b2, List.length_nil]; omega)) c3, ?_, ?_, ?_, ?_⟩
    · rw [heq]
      simp only
      rw [flush_remaining_log, c1, blog, a1, ai, if_pos rfl, hbegin_log, frames_append,
        frames_append]
      simp only [List.append_assoc]
    · rw [heq]
    · rw [heq]
    · rw [heq]

/-- C6: one invocation entered with cursor 0 in which the deadline is never exceeded
emits the command 0x10, then plane_BW as framed writes of `C` bytes each with one final
shorter write if `C` does not divide `L/2`, then the command 0x13 once, then plane_RED
chunked the same way; it returns complete and leaves the cursor at 0 and the buffer
untouched. -/
theorem transfer_uninterrupted (C : Nat) (hC : 1 ≤ C) (exceeded : Nat → Bool)
    (hex : ∀ i, exceeded i = false) (k : Nat) (s : EPaperInkplate2)
    (h0 : s.current_data_index_ = 0) :
    (transfer_data C exceeded k s).log =
      [Event.command 0x10] ++ frames (chunks C (plane_BW s)) ++ [Event.command 0x13] ++
        frames (chunks C (plane_RED s)) ∧
    (transfer_data C exceeded k s).result = true ∧
    (transfer_data C exceeded k s).dev.current_data_index_ = 0 ∧
    (transfer_data C exceeded k s).dev.buffer_ = s.buffer_ := by
  obtain ⟨bw, red, hbw, hred, hlog, hres, hcur, hbuf⟩ :=
    uninterrupted_log_chunked C hC exceeded hex k s h0
  rw [← chunked_eq_chunks C hC bw _ hbw, ← chunked_eq_chunks C hC red _ hred]
  exact ⟨hlog, hres, hcur, hbuf⟩

/-- Witness of `transfer_uninterrupted`: the instance `L = 32`, `C = 4` on a 16 x 16
panel whose buffer holds the bytes 0, 1, ..., 31. -/
theorem transfer_uninterrupted_witness :
    (1 ≤ 4 ∧ (∀ i : Nat, (fun _ : Nat => false) i = false) ∧
      EPaperInkplate2.current_data_index_ ⟨16, 16, List.range 32, 0⟩ = 0) ∧
    (transfer_data 4 (fun _ => false) 0 ⟨16, 16, List.range 32, 0⟩).log =
      [Event.command 0x10] ++ frames (chunks 4 (plane_BW ⟨16, 16, List.range 32, 0⟩)) ++
        [Event.command 0x13] ++ frames (chunks 4 (plane_RED ⟨16, 16, List.range 32, 0⟩)) ∧
    (transfer_data 4 (fun _ => false) 0 ⟨16, 16, List.range 32, 0⟩).result = true ∧
    (transfer_data 4 (fun _ => false) 0
      ⟨16, 16, List.range 32, 0⟩).dev.current_data_index_ = 0 ∧
    (transfer_data 4 (fun _ => false) 0 ⟨16, 16, List.range 32, 0⟩).dev.buffer_ =
      List.range 32 :=
  ⟨⟨by decide, fun _ => rfl, rfl⟩,
    transfer_uninterrupted 4 (by decide) (fun _ => false) (fun _ => rfl) 0
      ⟨16, 16, List.range 32, 0⟩ rfl⟩

/-- The trace of the uninterrupted transfer of a 10-byte buffer with chunk size 4: two
chunks per plane, the second one shorter. -/
theorem uninterrupted_trace_10_4 :
    (transfer_data 4 (fun _ => false) 0 ⟨8, 5, [1, 2, 3, 4, 5, 6, 7, 8, 9, 10], 0⟩).log =
      [Event.command 0x10,
       Event.start_data, Event.write_array [1, 2, 3, 4], Event.end_data,
       Event.start_data, Event.write_array [5], Event.end_data,
       Event.command 0x13,
       Event.start_data, Event.write_array [6, 7, 8, 9], Event.end_data,
       Event.start_data, Event.write_array [10], Event.end_data] := by
  decide

/-! ## Deadline exceeded after every full chunk -/

/-- With the deadline exceeded at every test, a loop entered with an empty chunk buffer
and a positive multiple of `C` bytes to go returns after exactly one chunk. -/
theorem transfer_loop_forced (C : Nat) (hC : 1 ≤ C) (buf : List Nat) (limit : Nat)
    (hlim : limit ≤ buf.length) (st : LoopState) (r : Bool × LoopState)
    (hbytes : st.bytes_to_send = []) (hlt : st.current_data_index_ < limit)
    (hdiv : C ∣ limit - st.current_data_index_)
    (hr : transfer_loop C (fun _ => true) buf limit (limit - st.current_data_index_) st = r) :
    r.1 = true ∧ r.2.current_data_index_ = st.current_data_index_ + C := by
  obtain ⟨cs, hp⟩ := transfer_loop_spec C (fun _ => true) buf limit hlim
    (limit - st.current_data_index_) st (by omega)
  rw [hr] at hp
  obtain ⟨h1, h2, h3, h4, h5, h6, h7, h8, h9⟩ := hp
  have hge : C ≤ limit - st.current_data_index_ := Nat.le_of_dvd (by omega) hdiv
  rw [hbytes, List.nil_append] at h3
  have hl3 := congrArg List.length h3
  rw [length_slice buf _ _ (by omega), List.length_append] at hl3
  have hlt9 := h9 (by rw [hbytes, List.length_nil]; omega)
  cases hb : r.1 with
  | false =>
    exfalso
    obtain ⟨hi, hall⟩ := h7 hb
    have hcs : cs = [] := by
      cases cs with
      | nil => rfl
      | cons c cs =>
        have := hall 0 (by simp)
        simp at this
    rw [hcs, List.flatten_nil, List.length_nil] at hl3
    omega
  | true =>
    obtain ⟨hbn, hne, _, hall⟩ := h8 hb
    refine ⟨rfl, ?_⟩
    match cs, hne, h2, hl3, hall with
    | [c], _, h2, hl3, _ =>
      have hc := h2 c (List.mem_singleton.mpr rfl)
      rw [hbn] at hl3
      simp only [List.flatten_cons, List.flatten_nil, List.append_nil, List.length_nil,
        Nat.add_zero] at hl3
      omega
    | c :: d :: cs, _, _, _, hall =>
      have := hall 0 (by simp)
      simp at this

/-- With the deadline exceeded at every test, an even buffer whose half is a positive
multiple of `C`, and a cursor below `L` that is a multiple of `C`, one invocation returns
not-complete exactly `C` bytes further. -/
theorem transfer_data_forced (C h : Nat) (hpos : 0 < h) (hdiv : C ∣ h) (k : Nat)
    (s : EPaperInkplate2) (hL : s.buffer_length_ = 2 * h)
    (hcdiv : C ∣ s.current_data_index_) (hlt : s.current_data_index_ < s.buffer_length_) :
    (transfer_data C (fun _ => true) k s).result = false ∧
    (transfer_data C (fun _ => true) k s).dev.current_data_index_ =
      s.current_data_index_ + C ∧
    (transfer_data C (fun _ => true) k s).dev.buffer_ = s.buffer_ := by
  have hC : 1 ≤ C := by
    rcases Nat.eq_zero_or_pos C with h0 | h0
    · subst h0
      have := Nat.eq_zero_of_zero_dvd hdiv
      omega
    · exact h0
  have hlen : s.buffer_length_ = s.buffer_.length := rfl
  have hhalf : s.buffer_length_ / 2 = h := by omega
  obtain ⟨r1, hr1⟩ : ∃ r1, transfer_loop C (fun _ => true) s.buffer_ (s.buffer_length_ / 2)
      (s.buffer_length_ / 2 - s.current_data_index_) (transfer_begin s k) = r1 := ⟨_, rfl⟩
  obtain ⟨r2, hr2⟩ : ∃ r2, transfer_loop C (fun _ => true) s.buffer_ s.buffer_length_
      (s.buffer_length_ -
        (transfer_boundary (s.buffer_length_ / 2) r1.2).current_data_index_)
      (transfer_boundary (s.buffer_length_ / 2) r1.2) = r2 := ⟨_, rfl⟩
  obtain ⟨b1, b2, _, _, _⟩ := transfer_boundary_spec (s.buffer_length_ / 2) r1.2
  by_cases hph : s.current_data_index_ < s.buffer_length_ / 2
  · have hd : C ∣ s.buffer_length_ / 2 - (transfer_begin s k).current_data_index_ := by
      show C ∣ s.buffer_length_ / 2 - s.current_data_index_
      rw [hhalf]
      exact Nat.dvd_sub' hdiv hcdiv
    obtain ⟨f1, f2⟩ := transfer_loop_forced C hC s.buffer_ (s.buffer_length_ / 2)
      (by omega) (transfer_begin s k) r1 rfl hph hd hr1
    rcases transfer_data_cases C (fun _ => true) k s r1 r2 hr1 hr2 with ⟨_, heq⟩ |
      ⟨g1, _, _⟩ | ⟨g1, _, _⟩
    · rw [heq]
      exact ⟨rfl, f2, rfl⟩
    · rw [f1] at g1; exact absurd g1 (by decide)
    · rw [f1] at g1; exact absurd g1 (by decide)
  · have hex : ¬ (transfer_begin s k).current_data_index_ < s.buffer_length_ / 2 := hph
    rw [transfer_loop_exit C (fun _ => true) s.buffer_ _ _ _ hex] at hr1
    have hr1a : r1.1 = false := by rw [← hr1]
    have hr1i : r1.2.current_data_index_ = s.current_data_index_ := by rw [← hr1]; rfl
    have hd : C ∣ s.buffer_length_ -
        (transfer_boundary (s.buffer_length_ / 2) r1.2).current_data_index_ := by
      rw [b1, hr1i, hL]
      exact Nat.dvd_sub' (Dvd.dvd.mul_left hdiv 2) hcdiv
    obtain ⟨f1, f2⟩ := transfer_loop_forced C hC s.buffer_ s.buffer_length_
      (le_refl _) (transfer_boundary (s.buffer_length_ / 2) r1.2) r2 b2
      (by rw [b1, hr1i]; exact hlt) hd hr2
    rw [b1, hr1i] at f2
    rcases transfer_data_cases C (fun _ => true) k s r1 r2
        (by rw [transfer_loop_exit C (fun _ => true) s.buffer_ _ _ _ hex]; exact hr1) hr2
      with ⟨g1, _⟩ | ⟨_, _, heq⟩ | ⟨_, g2, _⟩
    · rw [hr1a] at g1; exact absurd g1 (by decide)
    · rw [heq]
      exact ⟨rfl, f2, rfl⟩
    · rw [f1] at g2; exact absurd g2 (by decide)

/-- With the deadline exceeded at every test, from a cursor `j` chunks before the end of
an even buffer whose half is a positive multiple of `C`, exactly `j` invocations return
not-complete and the next returns complete. -/
theorem transfer_calls_forced (C h : Nat) (hpos : 0 < h) (hdiv : C ∣ h) (j k : Nat)
    (s : EPaperInkplate2) (hL : s.buffer_length_ = 2 * h)
    (hj : s.current_data_index_ + j * C = 2 * h) :
    (transfer_calls C (fun _ => true) (j + 1) k s).map Call.result =
      List.replicate j false ++ [true] := by
  have hC : 1 ≤ C := by
    rcases Nat.eq_zero_or_pos C with h0 | h0
    · subst h0
      have := Nat.eq_zero_of_zero_dvd hdiv
      omega
    · exact h0
  induction j generalizing k s with
  | zero =>
    obtain ⟨_, _, _, _, d5⟩ := transfer_data_spec C hC (fun _ => true) k s (by omega)
    cases hr : (transfer_data C (fun _ => true) k s).result with
    | true => simp [transfer_calls, hr]
    | false =>
      obtain ⟨q1, q2, _, _⟩ := d5 hr
      omega
  | succ j ih =>
    have hcdiv : C ∣ s.current_data_index_ := by
      have h2 : C ∣ 2 * h := Dvd.dvd.mul_left hdiv 2
      have h3 : C ∣ (j + 1) * C := Dvd.intro_left _ rfl
      rw [← hj] at h2
      exact (Nat.dvd_add_left h3).mp h2
    have hlt : s.current_data_index_ < s.buffer_length_ := by
      rw [Nat.succ_mul] at hj
      omega
    obtain ⟨f1, f2, f3⟩ := transfer_data_forced C h hpos hdiv k s hL hcdiv hlt
    have hlen := buffer_length_eq_of_buffer_eq s _ f3
    have := ih (transfer_data C (fun _ => true) k s).checks
      (transfer_data C (fun _ => true) k s).dev (by rw [hlen]; exact hL)
      (by rw [f2]; rw [Nat.succ_mul] at hj; omega)
    rw [transfer_calls_succ, List.map_cons, f1, this, List.replicate_succ, List.cons_append]

/-- C8: with the deadline reported exceeded after every full-chunk flush, for every
buffer of even length `L = 2 * h` whose half-length `h` is a positive multiple of the
chunk size `C`, starting from cursor 0 exactly `h/C + h/C` invocations return
not-complete, the next one returns complete, and the flushed chunks of these
invocations, concatenated, are the buffer in order. -/
theorem transfer_forced_deadline (C h : Nat) (hpos : 0 < h) (hdiv : C ∣ h) (k : Nat)
    (s : EPaperInkplate2) (hL : s.buffer_length_ = 2 * h)
    (h0 : s.current_data_index_ = 0) :
    (transfer_calls C (fun _ => true) (h / C + h / C + 1) k s).map Call.result =
      List.replicate (h / C + h / C) false ++ [true] ∧
    payload (calls_log (transfer_calls C (fun _ => true) (h / C + h / C + 1) k s)) =
      s.buffer_ := by
  have hC : 1 ≤ C := by
    rcases Nat.eq_zero_or_pos C with hz | hz
    · subst hz
      have := Nat.eq_zero_of_zero_dvd hdiv
      omega
    · exact hz
  have hmul : (h / C + h / C) * C = 2 * h := by
    rw [Nat.add_mul, Nat.div_mul_cancel hdiv]
    omega
  have hpat := transfer_calls_forced C h hpos hdiv (h / C + h / C) k s hL
    (by rw [h0, hmul]; omega)
  obtain ⟨_, w2⟩ := transfer_calls_stream C hC (fun _ => true) (h / C + h / C) k s
    (by omega) hpat
  rw [h0, List.take_zero, List.nil_append] at w2
  exact ⟨hpat, w2⟩

/-- Witness of `transfer_forced_deadline`: the instance `L = 32`, `C = 4`, eight
invocations return not-complete and the ninth returns complete. -/
theorem transfer_forced_deadline_witness :
    (0 < 16 ∧ 4 ∣ 16 ∧
      EPaperInkplate2.buffer_length_ ⟨16, 16, List.range 32, 0⟩ = 2 * 16 ∧
      EPaperInkplate2.current_data_index_ ⟨16, 16, List.range 32, 0⟩ = 0) ∧
    (transfer_calls 4 (fun _ => true) (16 / 4 + 16 / 4 + 1) 0
        ⟨16, 16, List.range 32, 0⟩).map Call.result =
      List.replicate (16 / 4 + 16 / 4) false ++ [true] ∧
    payload (calls_log (transfer_calls 4 (fun _ => true) (16 / 4 + 16 / 4 + 1) 0
      ⟨16, 16, List.range 32, 0⟩)) = List.range 32 :=
  ⟨⟨by decide, by decide, by decide, rfl⟩,
    transfer_forced_deadline 4 16 (by decide) (by decide) 0 ⟨16, 16, List.range 32, 0⟩
      (by decide) rfl⟩

/-! ## Power-off, deep sleep, refresh -/

/-- C11 (as amended): `power_off` emits the fixed sequence command 0x50, data byte 0xF7,
command 0x02 (three bytes) and `deep_sleep` the fixed sequence command 0x07, data byte
0xA5 (two bytes); both sequences are the same for every driver state, both leave the
driver (buffer and cursor) as it was, and neither makes a framed bulk write: no byte of
the framebuffer is sent. -/
theorem power_off_deep_sleep_sequences (s t : EPaperInkplate2) :
    (power_off s).2 = [Event.command 0x50, Event.data 0xF7, Event.command 0x02] ∧
    (deep_sleep s).2 = [Event.command 0x07, Event.data 0xA5] ∧
    wire (power_off s).2 = [Item.cmd 0x50, Item.byte 0xF7, Item.cmd 0x02] ∧
    wire (deep_sleep s).2 = [Item.cmd 0x07, Item.byte 0xA5] ∧
    (power_off s).2 = (power_off t).2 ∧ (deep_sleep s).2 = (deep_sleep t).2 ∧
    (power_off s).1 = s ∧ (deep_sleep s).1 = s ∧
    payload (power_off s).2 = [] ∧ payload (deep_sleep s).2 = [] ∧
    Event.start_data ∉ (power_off s).2 ∧ Event.start_data ∉ (deep_sleep s).2 := by
  refine ⟨rfl, rfl, rfl, rfl, rfl, rfl, rfl, rfl, rfl, rfl, ?_, ?_⟩ <;>
    simp [power_off, deep_sleep]

/-- C11, counterexample to "exactly two bytes and no data byte": on a 4-byte driver
`power_off` puts three bytes on the wire, and both `power_off` and `deep_sleep` send a
data byte. -/
theorem power_off_three_bytes :
    (wire (power_off ⟨8, 2, [0, 0, 0, 0], 0⟩).2).length = 3 ∧
    Event.data 0xF7 ∈ (power_off ⟨8, 2, [0, 0, 0, 0], 0⟩).2 ∧
    (wire (deep_sleep ⟨8, 2, [0, 0, 0, 0], 0⟩).2).length = 2 ∧
    Event.data 0xA5 ∈ (deep_sleep ⟨8, 2, [0, 0, 0, 0], 0⟩).2 := by
  decide

/-- C13: `refresh_screen` emits exactly command 0x11, one data byte 0x00, command 0x12
and one delay of 500 microseconds, in this order and with nothing else (no wait, no bulk
write); the driver, with its buffer and cursor, is returned as it was. -/
theorem refresh_screen_sequence (s : EPaperInkplate2) :
    (refresh_screen s).2 =
      [Event.command 0x11, Event.data 0x00, Event.command 0x12, Event.delay_us 500] ∧
    wire (refresh_screen s).2 = [Item.cmd 0x11, Item.byte 0x00, Item.cmd 0x12] ∧
    (refresh_screen s).1 = s ∧
    (refresh_screen s).1.buffer_ = s.buffer_ ∧
    (refresh_screen s).1.current_data_index_ = s.current_data_index_ :=
  ⟨rfl, rfl, rfl, rfl, rfl⟩

/-! ## `clear` and idempotence of `fill` -/

theorem fill_eq (s : EPaperInkplate2) (color : Color) :
    fill s color =
      { s with
        buffer_ := List.replicate (s.buffer_length_ / 2) (fill_bw_byte color) ++
          List.replicate (s.buffer_length_ - s.buffer_length_ / 2) (fill_red_byte color) } := by
  have h := fill_buffer s color
  have h1 : (fill s color).width_ = s.width_ := rfl
  have h2 : (fill s color).height_ = s.height_ := rfl
  have h3 : (fill s color).current_data_index_ = s.current_data_index_ := rfl
  cases hf : fill s color with
  | mk w ht b c =>
    rw [hf] at h h1 h2 h3
    simp only at h h1 h2 h3
    rw [h, h1, h2, h3]

theorem fill_white_bytes (color : Color) (hon : color.is_on = true)
    (hnr : ¬ (color.red > 200 ∧ color.green < 100 ∧ color.blue < 100)) :
    fill_bw_byte color = 0x00 ∧ fill_red_byte color = 0xFF := by
  have hred : ¬ is_red color = true := by
    simpa [is_red, and_assoc] using hnr
  simp [fill_bw_byte, fill_red_byte, is_black, hon, hred]

/-- C12: when the colour `clear()` passes, `COLOR_ON`, is classified white (flag on, red
test not met), `clear()` leaves the buffer with every byte of plane_BW at 0x00 and every
byte of plane_RED at 0xFF, and the driver it leaves equals the result of `fill(white)` for
every colour classified white. -/
theorem clear_is_fill_white (COLOR_ON : Color) (s : EPaperInkplate2)
    (hon : COLOR_ON.is_on = true)
    (hnr : ¬ (COLOR_ON.red > 200 ∧ COLOR_ON.green < 100 ∧ COLOR_ON.blue < 100)) :
    (clear COLOR_ON s).buffer_length_ = s.buffer_length_ ∧
    plane_BW (clear COLOR_ON s) = List.replicate (s.buffer_length_ / 2) 0x00 ∧
    plane_RED (clear COLOR_ON s) =
      List.replicate (s.buffer_length_ - s.buffer_length_ / 2) 0xFF ∧
    ∀ white : Color, white.is_on = true →
      ¬ (white.red > 200 ∧ white.green < 100 ∧ white.blue < 100) →
      clear COLOR_ON s = fill s white := by
  obtain ⟨hlen, hbw, hrd⟩ := fill_planes s COLOR_ON
  obtain ⟨b1, b2⟩ := fill_white_bytes COLOR_ON hon hnr
  rw [b1] at hbw
  rw [b2] at hrd
  refine ⟨hlen, hbw, hrd, ?_⟩
  intro white won wnr
  obtain ⟨w1, w2⟩ := fill_white_bytes white won wnr
  unfold clear
  rw [fill_eq s COLOR_ON, fill_eq s white, b1, b2, w1, w2]

/-- Witness of `clear_is_fill_white`: `COLOR_ON` = 255/255/255 with the flag on, on a
4-byte buffer. -/
theorem clear_is_fill_white_witness :
    (Color.is_on ⟨255, 255, 255, true⟩ = true ∧
      ¬ ((255 : Nat) > 200 ∧ (255 : Nat) < 100 ∧ (255 : Nat) < 100)) ∧
    (clear ⟨255, 255, 255, true⟩ ⟨8, 2, [1, 2, 3, 4], 0⟩).buffer_length_ =
      EPaperInkplate2.buffer_length_ ⟨8, 2, [1, 2, 3, 4], 0⟩ ∧
    plane_BW (clear ⟨255, 255, 255, true⟩ ⟨8, 2, [1, 2, 3, 4], 0⟩) =
      List.replicate (EPaperInkplate2.buffer_length_ ⟨8, 2, [1, 2, 3, 4], 0⟩ / 2) 0x00 ∧
    plane_RED (clear ⟨255, 255, 255, true⟩ ⟨8, 2, [1, 2, 3, 4], 0⟩) =
      List.replicate (EPaperInkplate2.buffer_length_ ⟨8, 2, [1, 2, 3, 4], 0⟩ -
        EPaperInkplate2.buffer_length_ ⟨8, 2, [1, 2, 3, 4], 0⟩ / 2) 0xFF ∧
    ∀ white : Color, white.is_on = true →
      ¬ (white.red > 200 ∧ white.green < 100 ∧ white.blue < 100) →
      clear ⟨255, 255, 255, true⟩ ⟨8, 2, [1, 2, 3, 4], 0⟩ =
        fill ⟨8, 2, [1, 2, 3, 4], 0⟩ white :=
  ⟨by decide,
    clear_is_fill_white ⟨255, 255, 255, true⟩ ⟨8, 2, [1, 2, 3, 4], 0⟩ rfl (by decide)⟩

/-- C14: `fill` is idempotent: for every driver and every colour, `fill(c)` applied twice
leaves the same driver, hence the same buffer, as `fill(c)` applied once. -/
theorem fill_idempotent (s : EPaperInkplate2) (color : Color) :
    fill (fill s color) color = fill s color ∧
    (fill (fill s color) color).buffer_ = (fill s color).buffer_ := by
  have hlen : (fill s color).buffer_length_ = s.buffer_length_ := (fill_planes s color).1
  have h : fill (fill s color) color = fill s color := by
    rw [fill_eq (fill s color) color, hlen, fill_eq s color]
  exact ⟨h, by rw [h]⟩

/-! ## Bounds of the pixel write -/

/-- When 8 divides `width * height`, every in-range pixel has its byte inside the B/W
half of a buffer of the constructor's length, and the red write inside the red half. -/
theorem pixel_pos_in_plane_of_dvd (width height : Nat) (h8 : 8 ∣ width * height)
    (x y : Int) (hx0 : 0 ≤ x) (hxw : x < (width : Int)) (hy0 : 0 ≤ y)
    (hyh : y < (height : Int)) :
    pixel_pos width x y < constructor_buffer_length width height / 2 ∧
    pixel_pos width x y + constructor_buffer_length width height / 2 <
      constructor_buffer_length width height := by
  obtain ⟨m, hm⟩ := h8
  have hprod : y * (width : Int) ≤ ((height : Int) - 1) * (width : Int) :=
    mul_le_mul_of_nonneg_right (by omega) (by omega)
  have hcast : ((width * height : Nat) : Int) = 8 * (m : Int) := by
    rw [hm]; push_cast; ring
  have hlt : x + y * (width : Int) < 8 * (m : Int) := by
    rw [← hcast]; push_cast; nlinarith
  have hnn : 0 ≤ x + y * (width : Int) := by
    have := mul_nonneg hy0 (Int.ofNat_nonneg width)
    omega
  unfold pixel_pos constructor_buffer_length
  rw [hm]
  generalize x + y * (width : Int) = n at hlt hnn ⊢
  omega

/-- C15, evaluated on a 3 x 3 panel: the constructor sets `L = 2`; the in-range pixel
(2, 2) has `pos = 1`, which is not below `L/2 = 1`, and its red write at
`pos + L/2 = 2` is not below `L = 2`. -/
theorem draw_pixel_bounds_fail_3x3 :
    constructor_buffer_length 3 3 = 2 ∧
    ((0 : Int) ≤ 2 ∧ (2 : Int) < ((3 : Nat) : Int)) ∧
    pixel_pos 3 2 2 = 1 ∧
    ¬ pixel_pos 3 2 2 < constructor_buffer_length 3 3 / 2 ∧
    ¬ pixel_pos 3 2 2 + constructor_buffer_length 3 3 / 2 < constructor_buffer_length 3 3 := by
  decide

/-! ## Progress of one invocation -/

/-- C16: for every invocation of `transfer_data` entered with cursor `c0 <= L`, any chunk
size `C >= 1` and any deadline outcomes, the bytes written by the bulk writes of that
invocation, concatenated in order, are exactly `buffer[c0 .. c1)`, where `c1` is the
cursor at exit when the invocation returns not-complete (so nothing copied is left
unsent) and `c1 = L` when it returns complete. -/
theorem transfer_progress_exact (C : Nat) (hC : 1 ≤ C) (exceeded : Nat → Bool) (k : Nat)
    (s : EPaperInkplate2) (hc : s.current_data_index_ ≤ s.buffer_length_) :
    ((transfer_data C exceeded k s).result = false →
      s.current_data_index_ ≤ (transfer_data C exceeded k s).dev.current_data_index_ ∧
      (transfer_data C exceeded k s).dev.current_data_index_ ≤ s.buffer_length_ ∧
      payload (transfer_data C exceeded k s).log =
        slice s.buffer_ s.current_data_index_
          (transfer_data C exceeded k s).dev.current_data_index_) ∧
    ((transfer_data C exceeded k s).result = true →
      payload (transfer_data C exceeded k s).log =
        slice s.buffer_ s.current_data_index_ s.buffer_length_) := by
  obtain ⟨_, _, _, d4, d5⟩ := transfer_data_spec C hC exceeded k s hc
  constructor
  · intro hr
    obtain ⟨q1, q2, _, q4⟩ := d5 hr
    have hle : s.current_data_index_ ≤
        (transfer_data C exceeded k s).dev.current_data_index_ := by omega
    refine ⟨hle, q2, ?_⟩
    rw [← take_append_slice s.buffer_ _ _ hle] at q4
    exact List.append_cancel_left q4
  · intro hr
    obtain ⟨_, _, q3⟩ := d4 hr
    have h1 : s.buffer_.take s.current_data_index_ ++
        slice s.buffer_ s.current_data_index_ s.buffer_length_ = s.buffer_ := by
      rw [take_append_slice s.buffer_ _ _ hc]
      exact List.take_length s.buffer_
    exact List.append_cancel_left (q3.trans h1.symm)

/-- Witness of `transfer_progress_exact`: a 4-byte buffer, cursor 1, chunk size 2. -/
theorem transfer_progress_exact_witness :
    (1 ≤ 2 ∧ EPaperInkplate2.current_data_index_ ⟨8, 2, [1, 2, 3, 4], 1⟩ ≤
      EPaperInkplate2.buffer_length_ ⟨8, 2, [1, 2, 3, 4], 1⟩) ∧
    ((transfer_data 2 (fun _ => true) 0 ⟨8, 2, [1, 2, 3, 4], 1⟩).result = false →
      EPaperInkplate2.current_data_index_ ⟨8, 2, [1, 2, 3, 4], 1⟩ ≤
        (transfer_data 2 (fun _ => true) 0 ⟨8, 2, [1, 2, 3, 4], 1⟩).dev.current_data_index_ ∧
      (transfer_data 2 (fun _ => true) 0 ⟨8, 2, [1, 2, 3, 4], 1⟩).dev.current_data_index_ ≤
        EPaperInkplate2.buffer_length_ ⟨8, 2, [1, 2, 3, 4], 1⟩ ∧
      payload (transfer_data 2 (fun _ => true) 0 ⟨8, 2, [1, 2, 3, 4], 1⟩).log =
        slice [1, 2, 3, 4] 1
          (transfer_data 2 (fun _ => true) 0
            ⟨8, 2, [1, 2, 3, 4], 1⟩).dev.current_data_index_) ∧
    ((transfer_data 2 (fun _ => true) 0 ⟨8, 2, [1, 2, 3, 4], 1⟩).result = true →
      payload (transfer_data 2 (fun _ => true) 0 ⟨8, 2, [1, 2, 3, 4], 1⟩).log =
        slice [1, 2, 3, 4] 1 (EPaperInkplate2.buffer_length_ ⟨8, 2, [1, 2, 3, 4], 1⟩)) :=
  ⟨by decide,
    transfer_progress_exact 2 (by decide) (fun _ => true) 0 ⟨8, 2, [1, 2, 3, 4], 1⟩
      (by decide)⟩

/-! ## Guaranteed completion -/

/-- C19: `transfer_data` is a total function, so every invocation returns; for every
chunk size `C >= 1` and all deadline outcomes, an invocation entered with a cursor in
`[0, L]` that returns not-complete has moved the cursor at least `C` bytes forward; hence
from cursor 0 some invocation returns complete after at most `floor(L/C)` incomplete
ones. -/
theorem transfer_guaranteed_completion (C : Nat) (hC : 1 ≤ C) (exceeded : Nat → Bool)
    (k : Nat) (s : EPaperInkplate2) (h0 : s.current_data_index_ = 0) :
    (∀ (j : Nat) (t : EPaperInkplate2), t.current_data_index_ ≤ t.buffer_length_ →
      (transfer_data C exceeded j t).result = false →
      t.current_data_index_ + C ≤ (transfer_data C exceeded j t).dev.current_data_index_ ∧
      (transfer_data C exceeded j t).dev.current_data_index_ ≤ t.buffer_length_) ∧
    ∃ m, m ≤ s.buffer_length_ / C ∧
      (transfer_calls C exceeded (m + 1) k s).map Call.result =
        List.replicate m false ++ [true] := by
  constructor
  · intro j t ht hr
    obtain ⟨_, _, _, _, d5⟩ := transfer_data_spec C hC exceeded j t ht
    obtain ⟨q1, q2, _, _⟩ := d5 hr
    exact ⟨q1, q2⟩
  · obtain ⟨m, hm, hpat⟩ := transfer_calls_complete C hC exceeded _ k s (by omega)
      (le_refl _)
    refine ⟨m, ?_, hpat⟩
    rw [h0, Nat.sub_zero] at hm
    exact (Nat.le_div_iff_mul_le (by omega)).mpr hm

/-- Witness of `transfer_guaranteed_completion`: a 4-byte buffer, chunk size 2, deadline
exceeded at every test. -/
theorem transfer_guaranteed_completion_witness :
    (1 ≤ 2 ∧ EPaperInkplate2.current_data_index_ ⟨8, 2, [1, 2, 3, 4], 0⟩ = 0) ∧
    (∀ (j : Nat) (t : EPaperInkplate2), t.current_data_index_ ≤ t.buffer_length_ →
      (transfer_data 2 (fun _ => true) j t).result = false →
      t.current_data_index_ + 2 ≤
        (transfer_data 2 (fun _ => true) j t).dev.current_data_index_ ∧
      (transfer_data 2 (fun _ => true) j t).dev.current_data_index_ ≤ t.buffer_length_) ∧
    ∃ m, m ≤ EPaperInkplate2.buffer_length_ ⟨8, 2, [1, 2, 3, 4], 0⟩ / 2 ∧
      (transfer_calls 2 (fun _ => true) (m + 1) 0 ⟨8, 2, [1, 2, 3, 4], 0⟩).map Call.result =
        List.replicate m false ++ [true] :=
  ⟨by decide,
    transfer_guaranteed_completion 2 (by decide) (fun _ => true) 0 ⟨8, 2, [1, 2, 3, 4], 0⟩
      rfl⟩

/-! ## Last write wins -/

theorem testBit_or_cell_all (b k j : Nat) (hk : k < 8) :
    ((b ||| (1 <<< k) % 256) % 256).testBit j =
      (decide (j < 8) && (b.testBit j || decide (k = j))) := by
  have h256 : (256 : Nat) = 2 ^ 8 := by norm_num
  have hlt : 2 ^ k < 2 ^ 8 := Nat.pow_lt_pow_right (by norm_num) hk
  rw [Nat.one_shiftLeft, h256, Nat.mod_eq_of_lt hlt, Nat.testBit_mod_two_pow,
    Nat.testBit_or, Nat.testBit_two_pow]

theorem testBit_and_not_cell_all (b k j : Nat) (hk : k < 8) :
    ((b &&& (0xFFFFFFFF - (1 <<< k) % 256)) % 256).testBit j =
      (decide (j < 8) && (b.testBit j && !decide (k = j))) := by
  have h256 : (256 : Nat) = 2 ^ 8 := by norm_num
  have hlt : 2 ^ k < 2 ^ 8 := Nat.pow_lt_pow_right (by norm_num) hk
  have hlt32 : 2 ^ k < 2 ^ 32 := lt_trans hlt (by norm_num)
  have hc : 0xFFFFFFFF - 2 ^ k = 2 ^ 32 - (2 ^ k + 1) := by omega
  rw [Nat.one_shiftLeft, h256, Nat.mod_eq_of_lt hlt, Nat.testBit_mod_two_pow,
    Nat.testBit_and, hc, Nat.testBit_two_pow_sub_succ hlt32, Nat.testBit_two_pow]
  by_cases hj : j < 8
  · have hj32 : j < 32 := by omega
    simp [hj, hj32]
  · simp [hj]

/-- The value a second read-modify-write of the same bit leaves in a cell does not
depend on the first one. -/
theorem cell_overwrite (b k : Nat) (hk : k < 8) :
    (((b ||| (1 <<< k) % 256) % 256 ||| (1 <<< k) % 256) % 256 =
      (b ||| (1 <<< k) % 256) % 256) ∧
    (((b &&& (0xFFFFFFFF - (1 <<< k) % 256)) % 256 ||| (1 <<< k) % 256) % 256 =
      (b ||| (1 <<< k) % 256) % 256) ∧
    (((b ||| (1 <<< k) % 256) % 256 &&& (0xFFFFFFFF - (1 <<< k) % 256)) % 256 =
      (b &&& (0xFFFFFFFF - (1 <<< k) % 256)) % 256) ∧
    (((b &&& (0xFFFFFFFF - (1 <<< k) % 256)) % 256 &&&
        (0xFFFFFFFF - (1 <<< k) % 256)) % 256 =
      (b &&& (0xFFFFFFFF - (1 <<< k) % 256)) % 256) := by
  refine ⟨?_, ?_, ?_, ?_⟩ <;>
  · apply Nat.eq_of_testBit_eq
    intro j
    simp only [testBit_or_cell_all _ k j hk, testBit_and_not_cell_all _ k j hk]
    by_cases hj : j < 8 <;> by_cases hkj : k = j <;> cases b.testBit j <;> simp [hj, hkj]

/-- The cell values of a second `draw_pixel` on the same pixel do not depend on the
first. -/
theorem draw_cell_overwrite (b : Nat) (x : Int) (p1 p2 : Bool) :
    ((if p2 then ((if p1 then (b ||| pixel_mask x) % 256
          else (b &&& (0xFFFFFFFF - pixel_mask x)) % 256) ||| pixel_mask x) % 256
      else ((if p1 then (b ||| pixel_mask x) % 256
          else (b &&& (0xFFFFFFFF - pixel_mask x)) % 256) &&&
            (0xFFFFFFFF - pixel_mask x)) % 256) =
      (if p2 then (b ||| pixel_mask x) % 256
        else (b &&& (0xFFFFFFFF - pixel_mask x)) % 256)) := by
  obtain ⟨h1, h2, h3, h4⟩ := cell_overwrite b (pixel_bit x) (pixel_bit_lt x)
  unfold pixel_mask
  cases p1 <;> cases p2 <;> simp only [if_true, if_false, Bool.false_eq_true] <;>
    assumption

/-- C20: for every driver, every in-range pixel whose byte lies inside the B/W plane and
every two colours `c1`, `c2`, `draw_pixel(x, y, c1)` followed by `draw_pixel(x, y, c2)`
leaves the same driver, hence the same buffer, as `draw_pixel(x, y, c2)` alone, and both
return normally; with `c1 = c2`, drawing twice equals drawing once. -/
theorem draw_pixel_last_write_wins (s : EPaperInkplate2) (x y : Int) (c1 c2 : Color)
    (hx0 : 0 ≤ x) (hxw : x < (s.width_ : Int)) (hy0 : 0 ≤ y) (hyh : y < (s.height_ : Int))
    (hpos : ((x + y * (s.width_ : Int)) / 8).toNat < s.buffer_length_ / 2) :
    ((draw_absolute_pixel_internal s x y c1).bind
        fun s1 => draw_absolute_pixel_internal s1 x y c2) =
      draw_absolute_pixel_internal s x y c2 ∧
    ∃ s2, draw_absolute_pixel_internal s x y c2 = some s2 := by
  have hL : s.buffer_.length = s.buffer_length_ := rfl
  obtain ⟨v1, v2, hd1, hv1, hv2⟩ := draw_in_range s x y c1 hx0 hxw hy0 hyh hpos
  obtain ⟨u1, u2, hd3, hu1, hu2⟩ := draw_in_range s x y c2 hx0 hxw hy0 hyh hpos
  have hp : pixel_pos s.width_ x y < s.buffer_length_ / 2 := hpos
  obtain ⟨w1, w2, hd2, hw1, hw2⟩ := draw_in_range
    { s with
      buffer_ := (s.buffer_.set (pixel_pos s.width_ x y) v1).set
                   (pixel_pos s.width_ x y + s.buffer_length_ / 2) v2 }
    x y c2 hx0 hxw hy0 hyh
    (by simp only [EPaperInkplate2.buffer_length_, List.length_set]; exact hpos)
  have hlen1 : EPaperInkplate2.buffer_length_
      { s with
        buffer_ := (s.buffer_.set (pixel_pos s.width_ x y) v1).set
                     (pixel_pos s.width_ x y + s.buffer_length_ / 2) v2 } =
      s.buffer_length_ := by
    simp [EPaperInkplate2.buffer_length_]
  simp only [hlen1] at hd2 hw1 hw2
  generalize pixel_pos s.width_ x y = pos at hd1 hv1 hv2 hd3 hu1 hu2 hp hd2 hw1 hw2
  have hne : pos ≠ pos + s.buffer_length_ / 2 := by omega
  have h1 : pos < s.buffer_.length := by omega
  have h2 : pos + s.buffer_length_ / 2 < s.buffer_.length := by omega
  have hg1 : ((s.buffer_.set pos v1).set (pos + s.buffer_length_ / 2) v2).getD pos 0 = v1 := by
    simp [List.getD_eq_getElem?_getD, List.getElem?_set, hne.symm, h1]
  have hg2 : ((s.buffer_.set pos v1).set (pos + s.buffer_length_ / 2) v2).getD
      (pos + s.buffer_length_ / 2) 0 = v2 := by
    simp [List.getD_eq_getElem?_getD, List.getElem?_set, h2]
  rw [hg1] at hw1
  rw [hg2] at hw2
  have e1 : w1 = u1 := by
    rw [hw1, hu1, hv1]
    exact draw_cell_overwrite _ x (is_black c1) (is_black c2)
  have e2 : w2 = u2 := by
    rw [hw2, hu2, hv2]
    have := draw_cell_overwrite (s.buffer_.getD (pos + s.buffer_length_ / 2) 0) x
      (!is_red c1) (!is_red c2)
    cases hr1 : is_red c1 <;> cases hr2 : is_red c2 <;>
      simpa [hr1, hr2] using this
  refine ⟨?_, _, hd3⟩
  rw [hd1, Option.some_bind, hd2, hd3, e1, e2]
  congr 2
  apply List.ext_getElem?
  intro i
  simp only [List.getElem?_set, List.length_set]
  by_cases hq : pos + s.buffer_length_ / 2 = i
  · simp [hq]
  · by_cases hpi : pos = i
    · simp [hq, hpi]
    · simp [hq, hpi]

/-- Witness of `draw_pixel_last_write_wins`: pixel (2, 1) of an 8 x 2 panel, drawn black
and then red. -/
theorem draw_pixel_last_write_wins_witness :
    ((0 : Int) ≤ 2 ∧ (2 : Int) < ((8 : Nat) : Int) ∧ (0 : Int) ≤ 1 ∧
      (1 : Int) < ((2 : Nat) : Int) ∧
      ((2 + 1 * ((8 : Nat) : Int)) / 8).toNat <
        EPaperInkplate2.buffer_length_ ⟨8, 2, [0, 0, 0, 0], 0⟩ / 2) ∧
    ((draw_absolute_pixel_internal ⟨8, 2, [0, 0, 0, 0], 0⟩ 2 1 ⟨0, 0, 0, false⟩).bind
        fun s1 => draw_absolute_pixel_internal s1 2 1 ⟨255, 0, 0, true⟩) =
      draw_absolute_pixel_internal ⟨8, 2, [0, 0, 0, 0], 0⟩ 2 1 ⟨255, 0, 0, true⟩ ∧
    ∃ s2, draw_absolute_pixel_internal ⟨8, 2, [0, 0, 0, 0], 0⟩ 2 1 ⟨255, 0, 0, true⟩ =
      some s2 :=
  ⟨by decide,
    draw_pixel_last_write_wins ⟨8, 2, [0, 0, 0, 0], 0⟩ 2 1 ⟨0, 0, 0, false⟩ ⟨255, 0, 0, true⟩
      (by decide) (by decide) (by decide) (by decide) (by decide)⟩

/-! ## Framing and chunk discipline -/

theorem framedLog_append (C : Nat) (P : List Nat → Prop) (l1 l2 : List Event)
    (h1 : FramedLog C P l1) (h2 : FramedLog C P l2) : FramedLog C P (l1 ++ l2) := by
  induction h1 with
  | nil => exact h2
  | command b rest _ ih => exact FramedLog.command b _ ih
  | frame bytes rest ha hb hp _ ih => exact FramedLog.frame bytes _ ha hb hp ih

theorem framedLog_frames (C : Nat) (P : List Nat → Prop) (cs : List (List Nat))
    (h : ∀ c ∈ cs, 1 ≤ c.length ∧ c.length ≤ C ∧ P c) : FramedLog C P (frames cs) := by
  induction cs with
  | nil => exact FramedLog.nil
  | cons c cs ih =>
    rw [frames_cons]
    obtain ⟨ha, hb, hp⟩ := h c (List.mem_cons_self _ _)
    exact FramedLog.frame c _ ha hb hp (ih fun d hd => h d (List.mem_cons_of_mem _ hd))

/-- The pieces of a cut of `buffer[a .. b)` are themselves slices inside `[a, b)`. -/
theorem chunk_is_slice (buf : List Nat) (cs : List (List Nat)) (a b : Nat) (hab : a ≤ b)
    (hb : b ≤ buf.length) (h : cs.flatten = slice buf a b) :
    ∀ c ∈ cs, ∃ a1 b1, c = slice buf a1 b1 ∧ a ≤ a1 ∧ a1 ≤ b1 ∧ b1 ≤ b := by
  induction cs generalizing a with
  | nil => intro c hc; simp at hc
  | cons d cs ih =>
    have hl := congrArg List.length h
    rw [List.flatten_cons, List.length_append, length_slice buf a b hb] at hl
    have hsplit := slice_append_slice buf a (a + d.length) b (by omega) (by omega) (by omega)
    rw [← h, List.flatten_cons] at hsplit
    have hlen : (slice buf a (a + d.length)).length = d.length := by
      rw [length_slice buf _ _ (by omega)]; omega
    obtain ⟨e1, e2⟩ := List.append_inj hsplit hlen
    intro c hc
    rcases List.mem_cons.mp hc with rfl | hc
    · exact ⟨a, a + c.length, e1.symm, le_refl _, by omega, by omega⟩
    · obtain ⟨a1, b1, q1, q2, q3, q4⟩ := ih (a + d.length) (by omega) e2.symm c hc
      exact ⟨a1, b1, q1, by omega, q3, q4⟩

/-- In a framed log every bulk write has a `start_data` right before it and an
`end_data` right after it, carries between 1 and `C` bytes, and its bytes satisfy `P`. -/
theorem framedLog_bulk_write (C : Nat) (P : List Nat → Prop) (log : List Event)
    (h : FramedLog C P log) :
    ∀ (i : Nat) (bytes : List Nat), log[i]? = some (Event.write_array bytes) →
      (∃ j, i = j + 1 ∧ log[j]? = some Event.start_data) ∧
      log[i + 1]? = some Event.end_data ∧
      1 ≤ bytes.length ∧ bytes.length ≤ C ∧ P bytes := by
  induction h with
  | nil => intro i bytes hi; simp at hi
  | command b rest _ ih =>
    intro i bytes hi
    cases i with
    | zero => simp at hi
    | succ i =>
      rw [List.getElem?_cons_succ] at hi
      obtain ⟨⟨j, hj, hs⟩, he, hrest⟩ := ih i bytes hi
      refine ⟨⟨j + 1, by omega, ?_⟩, ?_, hrest⟩
      · rw [List.getElem?_cons_succ]; exact hs
      · rw [List.getElem?_cons_succ]; exact he
  | frame bs rest ha hb hp _ ih =>
    intro i bytes hi
    match i, hi with
    | 0, hi => simp at hi
    | 1, hi =>
      simp only [List.getElem?_cons_succ, List.getElem?_cons_zero, Option.some.injEq,
        Event.write_array.injEq] at hi
      subst hi
      exact ⟨⟨0, rfl, by simp⟩, by simp, ha, hb, hp⟩
    | 2, hi => simp at hi
    | i + 3, hi =>
      simp only [List.getElem?_cons_succ] at hi
      obtain ⟨⟨j, hj, hs⟩, he, hrest⟩ := ih i bytes hi
      refine ⟨⟨j + 3, by omega, ?_⟩, ?_, hrest⟩
      · simp only [List.getElem?_cons_succ]; exact hs
      · simp only [List.getElem?_cons_succ]; exact he

/-- In a framed log every `start_data` opens a frame that is closed two events later. -/
theorem framedLog_start_closed (C : Nat) (P : List Nat → Prop) (log : List Event)
    (h : FramedLog C P log) :
    ∀ i : Nat, log[i]? = some Event.start_data → log[i + 2]? = some Event.end_data := by
  induction h with
  | nil => intro i hi; simp at hi
  | command b rest _ ih =>
    intro i hi
    cases i with
    | zero => simp at hi
    | succ i =>
      rw [List.getElem?_cons_succ] at hi
      have := ih i hi
      simpa [List.getElem?_cons_succ] using this
  | frame bs rest ha hb hp _ ih =>
    intro i hi
    match i, hi with
    | 0, _ => simp
    | 1, hi => simp at hi
    | 2, hi => simp at hi
    | i + 3, hi =>
      simp only [List.getElem?_cons_succ] at hi
      have := ih i hi
      simpa [List.getElem?_cons_succ] using this

/-- One run of the loop entered with an empty chunk buffer, followed by the flush of
what it holds, extends a framed log to a framed log, when every slice of the range the
loop runs over satisfies `P`. -/
theorem transfer_loop_framed (C : Nat) (hC : 1 ≤ C) (exceeded : Nat → Bool) (buf : List Nat)
    (limit : Nat) (hlim : limit ≤ buf.length) (st : LoopState) (r : Bool × LoopState)
    (P : List Nat → Prop) (hbytes : st.bytes_to_send = [])
    (hr : transfer_loop C exceeded buf limit (limit - st.current_data_index_) st = r)
    (hP : ∀ a b, st.current_data_index_ ≤ a → a ≤ b → b ≤ limit → P (slice buf a b))
    (hst : FramedLog C P st.log) :
    FramedLog C P (flush_remaining r.2).log ∧ (r.1 = true → FramedLog C P r.2.log) := by
  by_cases hidx : st.current_data_index_ ≤ limit
  · obtain ⟨cs, hp⟩ := transfer_loop_spec C exceeded buf limit hlim
      (limit - st.current_data_index_) st (by omega)
    rw [hr] at hp
    obtain ⟨h1, h2, h3, h4, h5, h6, h7, h8, h9⟩ := hp
    rw [hbytes, List.nil_append] at h3
    have hrem := h9 (by rw [hbytes, List.length_nil]; omega)
    obtain ⟨k1, k2, _⟩ := chunked_of_full_and_rest C hC _ cs r.2.bytes_to_send h2 hrem h3
    have hall : ∀ c ∈ cs ++ (if r.2.bytes_to_send = [] then [] else [r.2.bytes_to_send]),
        1 ≤ c.length ∧ c.length ≤ C ∧ P c := by
      intro c hc
      obtain ⟨a1, b1, q1, q2, q3, q4⟩ :=
        chunk_is_slice buf _ _ _ h4 (by omega) k1 c hc
      refine ⟨(k2 c hc).1, (k2 c hc).2, ?_⟩
      rw [q1]
      exact hP a1 b1 q2 q3 (by omega)
    have hfl : FramedLog C P (flush_remaining r.2).log := by
      rw [flush_remaining_log, h1, List.append_assoc, ← frames_append]
      exact framedLog_append C P _ _ hst (framedLog_frames C P _ hall)
    refine ⟨hfl, ?_⟩
    intro hb
    have hnil := (h8 hb).1
    rw [flush_remaining_log, hnil, if_pos rfl, frames_nil, List.append_nil] at hfl
    exact hfl
  · have hex : ¬ st.current_data_index_ < limit := by omega
    rw [transfer_loop_exit C exceeded buf limit _ st hex] at hr
    subst hr
    refine ⟨?_, ?_⟩
    · rw [flush_remaining_log]
      simp only [hbytes, if_true, frames_nil, List.append_nil]
      exact hst
    · intro hb
      exact absurd hb Bool.false_ne_true

/-- C17: in the event log of every invocation of `transfer_data` (entry cursor in
`[0, L]`, any deadline outcomes, chunk size `C >= 1`) every bulk write stands between a
`start_data` right before it and an `end_data` right after it, carries between 1 and `C`
bytes, and these bytes are a slice of one plane only; the log consists of commands and
complete frames, so no frame is open at return, also when the deadline interrupts. -/
theorem transfer_framing (C : Nat) (hC : 1 ≤ C) (exceeded : Nat → Bool) (k : Nat)
    (s : EPaperInkplate2) (hc : s.current_data_index_ ≤ s.buffer_length_) :
    FramedLog C (InOnePlane s.buffer_) (transfer_data C exceeded k s).log ∧
    (∀ (i : Nat) (bytes : List Nat),
      (transfer_data C exceeded k s).log[i]? = some (Event.write_array bytes) →
      (∃ j, i = j + 1 ∧ (transfer_data C exceeded k s).log[j]? = some Event.start_data) ∧
      (transfer_data C exceeded k s).log[i + 1]? = some Event.end_data ∧
      1 ≤ bytes.length ∧ bytes.length ≤ C ∧ InOnePlane s.buffer_ bytes) ∧
    (∀ i : Nat, (transfer_data C exceeded k s).log[i]? = some Event.start_data →
      (transfer_data C exceeded k s).log[i + 2]? = some Event.end_data) := by
  suffices hF : FramedLog C (InOnePlane s.buffer_) (transfer_data C exceeded k s).log from
    ⟨hF, framedLog_bulk_write C _ _ hF, framedLog_start_closed C _ _ hF⟩
  have hL : s.buffer_length_ = s.buffer_.length := rfl
  obtain ⟨r1, hr1⟩ : ∃ r1, transfer_loop C exceeded s.buffer_ (s.buffer_length_ / 2)
      (s.buffer_length_ / 2 - s.current_data_index_) (transfer_begin s k) = r1 := ⟨_, rfl⟩
  obtain ⟨r2, hr2⟩ : ∃ r2, transfer_loop C exceeded s.buffer_ s.buffer_length_
      (s.buffer_length_ -
        (transfer_boundary (s.buffer_length_ / 2) r1.2).current_data_index_)
      (transfer_boundary (s.buffer_length_ / 2) r1.2) = r2 := ⟨_, rfl⟩
  have hbegin : FramedLog C (InOnePlane s.buffer_) (transfer_begin s k).log := by
    unfold transfer_begin
    by_cases h0 : s.current_data_index_ = 0
    · simp only [h0, if_true]
      exact FramedLog.command _ _ FramedLog.nil
    · simp only [h0, if_false]
      exact FramedLog.nil
  obtain ⟨f1, f1'⟩ := transfer_loop_framed C hC exceeded s.buffer_ (s.buffer_length_ / 2)
    (by omega) (transfer_begin s k) r1 (InOnePlane s.buffer_) rfl hr1
    (fun a b _ hab hb => ⟨a, b, rfl, hab, by omega, Or.inl (by rw [← hL]; exact hb)⟩)
    hbegin
  obtain ⟨p1, p2⟩ := transfer_phase_bw C hC exceeded k s hc r1 hr1
  obtain ⟨b1, b2, _, _, _⟩ := transfer_boundary_spec (s.buffer_length_ / 2) r1.2
  have hbound : FramedLog C (InOnePlane s.buffer_)
      (transfer_boundary (s.buffer_length_ / 2) r1.2).log := by
    rw [transfer_boundary_log, ← flush_remaining_log]
    apply framedLog_append C _ _ _ f1
    by_cases hh : r1.2.current_data_index_ = s.buffer_length_ / 2
    · simp only [hh, if_true]
      exact FramedLog.command _ _ FramedLog.nil
    · simp only [hh, if_false]
      exact FramedLog.nil
  rcases transfer_data_cases C exceeded k s r1 r2 hr1 hr2 with ⟨g1, heq⟩ | ⟨g1, g2, heq⟩ |
    ⟨g1, g2, heq⟩
  · rw [heq]
    exact f1' g1
  · obtain ⟨q1, q2, q3, q4, _, _⟩ := p2 g1
    obtain ⟨f2, f2'⟩ := transfer_loop_framed C hC exceeded s.buffer_ s.buffer_length_
      (le_refl _) (transfer_boundary (s.buffer_length_ / 2) r1.2) r2
      (InOnePlane s.buffer_) q1 hr2
      (fun a b ha hab hb => ⟨a, b, rfl, hab, hb, Or.inr (by rw [← hL]; omega)⟩)
      hbound
    rw [heq]
    exact f2' g2
  · obtain ⟨q1, q2, q3, q4, _, _⟩ := p2 g1
    obtain ⟨f2, f2'⟩ := transfer_loop_framed C hC exceeded s.buffer_ s.buffer_length_
      (le_refl _) (transfer_boundary (s.buffer_length_ / 2) r1.2) r2
      (InOnePlane s.buffer_) q1 hr2
      (fun a b ha hab hb => ⟨a, b, rfl, hab, hb, Or.inr (by rw [← hL]; omega)⟩)
      hbound
    rw [heq]
    exact f2

/-- Witness of `transfer_framing`: a 4-byte buffer, cursor 1, chunk size 2. -/
theorem transfer_framing_witness :
    (1 ≤ 2 ∧ EPaperInkplate2.current_data_index_ ⟨8, 2, [1, 2, 3, 4], 1⟩ ≤
      EPaperInkplate2.buffer_length_ ⟨8, 2, [1, 2, 3, 4], 1⟩) ∧
    FramedLog 2 (InOnePlane [1, 2, 3, 4])
      (transfer_data 2 (fun _ => true) 0 ⟨8, 2, [1, 2, 3, 4], 1⟩).log ∧
    (∀ (i : Nat) (bytes : List Nat),
      (transfer_data 2 (fun _ => true) 0 ⟨8, 2, [1, 2, 3, 4], 1⟩).log[i]? =
        some (Event.write_array bytes) →
      (∃ j, i = j + 1 ∧
        (transfer_data 2 (fun _ => true) 0 ⟨8, 2, [1, 2, 3, 4], 1⟩).log[j]? =
          some Event.start_data) ∧
      (transfer_data 2 (fun _ => true) 0 ⟨8, 2, [1, 2, 3, 4], 1⟩).log[i + 1]? =
        some Event.end_data ∧
      1 ≤ bytes.length ∧ bytes.length ≤ 2 ∧ InOnePlane [1, 2, 3, 4] bytes) ∧
    (∀ i : Nat,
      (transfer_data 2 (fun _ => true) 0 ⟨8, 2, [1, 2, 3, 4], 1⟩).log[i]? =
        some Event.start_data →
      (transfer_data 2 (fun _ => true) 0 ⟨8, 2, [1, 2, 3, 4], 1⟩).log[i + 2]? =
        some Event.end_data) :=
  ⟨by decide,
    transfer_framing 2 (by decide) (fun _ => true) 0 ⟨8, 2, [1, 2, 3, 4], 1⟩ (by decide)⟩

/-! ## Call count when the deadline is exceeded after every full chunk -/

/-- A loop entered with an empty chunk buffer and fewer than `C` bytes to go is not
interrupted, whatever the deadline outcomes. -/
theorem transfer_loop_short (C : Nat) (exceeded : Nat → Bool) (buf : List Nat) (limit : Nat)
    (hlim : limit ≤ buf.length) (st : LoopState) (r : Bool × LoopState)
    (hbytes : st.bytes_to_send = []) (hshort : limit - st.current_data_index_ < C)
    (hr : transfer_loop C exceeded buf limit (limit - st.current_data_index_) st = r) :
    r.1 = false ∧
    r.2.current_data_index_ = max st.current_data_index_ limit := by
  by_cases hidx : st.current_data_index_ ≤ limit
  · obtain ⟨e1, e2, _, _, e5, e6⟩ := transfer_loop_from_empty C exceeded buf limit hlim st r
      hbytes hidx hr
    cases hb : r.1 with
    | true =>
      obtain ⟨_, hprog⟩ := e5 hb
      omega
    | false =>
      refine ⟨rfl, ?_⟩
      rw [e6 hb]
      omega
  · have hex : ¬ st.current_data_index_ < limit := by omega
    rw [transfer_loop_exit C exceeded buf limit _ st hex] at hr
    subst hr
    exact ⟨rfl, by simp only; omega⟩

/-- With the deadline exceeded at every test, a loop entered with an empty chunk buffer
and at least `C` bytes to go returns after exactly one chunk. -/
theorem transfer_loop_forced_ge (C : Nat) (hC : 1 ≤ C) (buf : List Nat) (limit : Nat)
    (hlim : limit ≤ buf.length) (st : LoopState) (r : Bool × LoopState)
    (hbytes : st.bytes_to_send = []) (hge : st.current_data_index_ + C ≤ limit)
    (hr : transfer_loop C (fun _ => true) buf limit (limit - st.current_data_index_) st = r) :
    r.1 = true ∧ r.2.current_data_index_ = st.current_data_index_ + C := by
  obtain ⟨cs, hp⟩ := transfer_loop_spec C (fun _ => true) buf limit hlim
    (limit - st.current_data_index_) st (by omega)
  rw [hr] at hp
  obtain ⟨h1, h2, h3, h4, h5, h6, h7, h8, h9⟩ := hp
  rw [hbytes, List.nil_append] at h3
  have hl3 := congrArg List.length h3
  rw [length_slice buf _ _ (by omega), List.length_append] at hl3
  have hlt9 := h9 (by rw [hbytes, List.length_nil]; omega)
  cases hb : r.1 with
  | false =>
    exfalso
    obtain ⟨hi, hall⟩ := h7 hb
    have hcs : cs = [] := by
      cases cs with
      | nil => rfl
      | cons c cs =>
        have := hall 0 (by simp)
        simp at this
    rw [hcs, List.flatten_nil, List.length_nil] at hl3
    omega
  | true =>
    obtain ⟨hbn, hne, _, hall⟩ := h8 hb
    refine ⟨rfl, ?_⟩
    match cs, hne, h2, hl3, hall with
    | [c], _, h2, hl3, _ =>
      have hc := h2 c (List.mem_singleton.mpr rfl)
      rw [hbn] at hl3
      simp only [List.flatten_cons, List.flatten_nil, List.append_nil, List.length_nil,
        Nat.add_zero] at hl3
      omega
    | c :: d :: cs, _, _, _, hall =>
      have := hall 0 (by simp)
      simp at this

/-- One invocation with the deadline exceeded at every test, from a cursor in `[0, L]`:
with a full chunk left in the B/W plane it returns not-complete one chunk further;
otherwise it finishes the B/W plane and returns not-complete one chunk into the rest of
the red plane, or, with less than a chunk left there, complete. -/
theorem transfer_data_forced_any (C : Nat) (hC : 1 ≤ C) (k : Nat) (s : EPaperInkplate2)
    (hc : s.current_data_index_ ≤ s.buffer_length_) :
    (transfer_data C (fun _ => true) k s).dev.buffer_ = s.buffer_ ∧
    (s.current_data_index_ + C ≤ s.buffer_length_ / 2 →
      (transfer_data C (fun _ => true) k s).result = false ∧
      (transfer_data C (fun _ => true) k s).dev.current_data_index_ =
        s.current_data_index_ + C) ∧
    (s.buffer_length_ / 2 < s.current_data_index_ + C →
      max s.current_data_index_ (s.buffer_length_ / 2) + C ≤ s.buffer_length_ →
      (transfer_data C (fun _ => true) k s).result = false ∧
      (transfer_data C (fun _ => true) k s).dev.current_data_index_ =
        max s.current_data_index_ (s.buffer_length_ / 2) + C) ∧
    (s.buffer_length_ / 2 < s.current_data_index_ + C →
      s.buffer_length_ < max s.current_data_index_ (s.buffer_length_ / 2) + C →
      (transfer_data C (fun _ => true) k s).result = true) := by
  have hlen : s.buffer_length_ = s.buffer_.length := rfl
  obtain ⟨d1, _, _, _, _⟩ := transfer_data_spec C hC (fun _ => true) k s hc
  obtain ⟨r1, hr1⟩ : ∃ r1, transfer_loop C (fun _ => true) s.buffer_ (s.buffer_length_ / 2)
      (s.buffer_length_ / 2 - s.current_data_index_) (transfer_begin s k) = r1 := ⟨_, rfl⟩
  obtain ⟨r2, hr2⟩ : ∃ r2, transfer_loop C (fun _ => true) s.buffer_ s.buffer_length_
      (s.buffer_length_ -
        (transfer_boundary (s.buffer_length_ / 2) r1.2).current_data_index_)
      (transfer_boundary (s.buffer_length_ / 2) r1.2) = r2 := ⟨_, rfl⟩
  obtain ⟨b1, b2, _, _, _⟩ := transfer_boundary_spec (s.buffer_length_ / 2) r1.2
  have hbi : (transfer_begin s k).current_data_index_ = s.current_data_index_ := rfl
  refine ⟨d1, ?_, ?_, ?_⟩
  · intro hA
    obtain ⟨f1, f2⟩ := transfer_loop_forced_ge C hC s.buffer_ (s.buffer_length_ / 2)
      (by omega) (transfer_begin s k) r1 rfl hA hr1
    rcases transfer_data_cases C (fun _ => true) k s r1 r2 hr1 hr2 with ⟨_, heq⟩ |
      ⟨g1, _, _⟩ | ⟨g1, _, _⟩
    · rw [heq]
      exact ⟨rfl, f2⟩
    · rw [f1] at g1; exact absurd g1 (by decide)
    · rw [f1] at g1; exact absurd g1 (by decide)
  · intro hB hB2
    obtain ⟨f1, f2⟩ := transfer_loop_short C (fun _ => true) s.buffer_
      (s.buffer_length_ / 2) (by omega) (transfer_begin s k) r1 rfl
      (by rw [hbi]; omega) hr1
    rw [hbi] at f2
    obtain ⟨e1, e2⟩ := transfer_loop_forced_ge C hC s.buffer_ s.buffer_length_
      (le_refl _) (transfer_boundary (s.buffer_length_ / 2) r1.2) r2 b2
      (by rw [b1, f2]; exact hB2) hr2
    rw [b1, f2] at e2
    rcases transfer_data_cases C (fun _ => true) k s r1 r2 hr1 hr2 with ⟨g1, _⟩ |
      ⟨_, _, heq⟩ | ⟨_, g2, _⟩
    · rw [f1] at g1; exact absurd g1 (by decide)
    · rw [heq]
      exact ⟨rfl, e2⟩
    · rw [e1] at g2; exact absurd g2 (by decide)
  · intro hB hB2
    obtain ⟨f1, f2⟩ := transfer_loop_short C (fun _ => true) s.buffer_
      (s.buffer_length_ / 2) (by omega) (transfer_begin s k) r1 rfl
      (by rw [hbi]; omega) hr1
    rw [hbi] at f2
    obtain ⟨e1, _⟩ := transfer_loop_short C (fun _ => true) s.buffer_ s.buffer_length_
      (le_refl _) (transfer_boundary (s.buffer_length_ / 2) r1.2) r2 b2
      (by rw [b1, f2]; omega) hr2
    rcases transfer_data_cases C (fun _ => true) k s r1 r2 hr1 hr2 with ⟨g1, _⟩ |
      ⟨_, g2, _⟩ | ⟨_, _, heq⟩
    · rw [f1] at g1; exact absurd g1 (by decide)
    · rw [e1] at g2; exact absurd g2 (by decide)
    · rw [heq]

/-- With the deadline exceeded at every test, from a cursor at or past the plane
boundary with `n` full chunks left, exactly `n` invocations return not-complete and the
next returns complete. -/
theorem transfer_calls_forced_red (C : Nat) (hC : 1 ≤ C) (n k : Nat) (s : EPaperInkplate2)
    (hh : s.buffer_length_ / 2 ≤ s.current_data_index_)
    (hlo : s.current_data_index_ + n * C ≤ s.buffer_length_)
    (hhi : s.buffer_length_ < s.current_data_index_ + (n + 1) * C) :
    (transfer_calls C (fun _ => true) (n + 1) k s).map Call.result =
      List.replicate n false ++ [true] := by
  induction n generalizing k s with
  | zero =>
    obtain ⟨_, _, _, fC⟩ := transfer_data_forced_any C hC k s (by omega)
    have hr := fC (by omega) (by rw [Nat.max_eq_left hh]; omega)
    simp [transfer_calls, hr]
  | succ n ih =>
    have e1 : (n + 1) * C = n * C + C := Nat.succ_mul n C
    have e2 : (n + 1 + 1) * C = (n + 1) * C + C := Nat.succ_mul (n + 1) C
    obtain ⟨fbuf, _, fB, _⟩ := transfer_data_forced_any C hC k s (by omega)
    obtain ⟨f1, f2⟩ := fB (by omega) (by rw [Nat.max_eq_left hh]; omega)
    rw [Nat.max_eq_left hh] at f2
    have hlen := buffer_length_eq_of_buffer_eq s _ fbuf
    have := ih (transfer_data C (fun _ => true) k s).checks
      (transfer_data C (fun _ => true) k s).dev (by rw [hlen, f2]; omega)
      (by rw [hlen, f2]; omega)
      (by rw [hlen, f2]; omega)
    rw [transfer_calls_succ, List.map_cons, f1, this, List.replicate_succ, List.cons_append]

/-- With the deadline exceeded at every test, from a cursor in the B/W plane with `n`
full chunks left before the boundary, exactly `n + floor((L - L/2) / C)` invocations
return not-complete and the next returns complete. -/
theorem transfer_calls_forced_bw (C : Nat) (hC : 1 ≤ C) (n k : Nat) (s : EPaperInkplate2)
    (hlo : s.current_data_index_ + n * C ≤ s.buffer_length_ / 2)
    (hhi : s.buffer_length_ / 2 < s.current_data_index_ + (n + 1) * C) :
    (transfer_calls C (fun _ => true)
        (n + (s.buffer_length_ - s.buffer_length_ / 2) / C + 1) k s).map Call.result =
      List.replicate (n + (s.buffer_length_ - s.buffer_length_ / 2) / C) false ++ [true] := by
  induction n generalizing k s with
  | zero =>
    simp only [Nat.zero_mul, Nat.add_zero, Nat.zero_add, Nat.one_mul] at hlo hhi ⊢
    obtain ⟨fbuf, _, fB, fC⟩ := transfer_data_forced_any C hC k s (by omega)
    have hmax : max s.current_data_index_ (s.buffer_length_ / 2) = s.buffer_length_ / 2 :=
      Nat.max_eq_right hlo
    have hm1 : (s.buffer_length_ - s.buffer_length_ / 2) / C * C ≤
        s.buffer_length_ - s.buffer_length_ / 2 := Nat.div_mul_le_self _ _
    have hm2 : s.buffer_length_ - s.buffer_length_ / 2 <
        (s.buffer_length_ - s.buffer_length_ / 2) / C * C + C :=
      Nat.lt_div_mul_add (by omega)
    generalize (s.buffer_length_ - s.buffer_length_ / 2) / C = m at hm1 hm2 ⊢
    cases m with
    | zero =>
      have hr := fC hhi (by rw [hmax]; omega)
      simp [transfer_calls, hr]
    | succ m =>
      rw [Nat.succ_mul] at hm1 hm2
      obtain ⟨f1, f2⟩ := fB hhi (by rw [hmax]; omega)
      rw [hmax] at f2
      have hlen := buffer_length_eq_of_buffer_eq s _ fbuf
      have := transfer_calls_forced_red C hC m (transfer_data C (fun _ => true) k s).checks
        (transfer_data C (fun _ => true) k s).dev (by rw [hlen, f2]; omega)
        (by rw [hlen, f2]; omega)
        (by rw [hlen, f2]; rw [Nat.succ_mul]; omega)
      rw [transfer_calls_succ, List.map_cons, f1, this, List.replicate_succ,
        List.cons_append]
  | succ n ih =>
    have e1 : (n + 1) * C = n * C + C := Nat.succ_mul n C
    have e2 : (n + 1 + 1) * C = (n + 1) * C + C := Nat.succ_mul (n + 1) C
    obtain ⟨fbuf, fA, _, _⟩ := transfer_data_forced_any C hC k s (by omega)
    obtain ⟨f1, f2⟩ := fA (by omega)
    have hlen := buffer_length_eq_of_buffer_eq s _ fbuf
    have := ih (transfer_data C (fun _ => true) k s).checks
      (transfer_data C (fun _ => true) k s).dev (by rw [hlen, f2]; omega)
      (by rw [hlen, f2]; omega)
    rw [hlen] at this
    have hcount : n + 1 + (s.buffer_length_ - s.buffer_length_ / 2) / C + 1 =
        (n + (s.buffer_length_ - s.buffer_length_ / 2) / C + 1) + 1 := by omega
    have hcount2 : n + 1 + (s.buffer_length_ - s.buffer_length_ / 2) / C =
        (n + (s.buffer_length_ - s.buffer_length_ / 2) / C) + 1 := by omega
    rw [hcount, hcount2, transfer_calls_succ, List.map_cons, f1, this, List.replicate_succ,
      List.cons_append]

/-- The two quotients: `floor(h/C) ≤ ceil(h/C)`, with equality exactly when `C` divides
`h`. -/
theorem floor_le_ceil_div (h C : Nat) (hC : 1 ≤ C) :
    h / C ≤ (h + C - 1) / C ∧ (h / C = (h + C - 1) / C ↔ C ∣ h) := by
  have hdm := Nat.div_add_mod h C
  have hmod := Nat.mod_lt h (show 0 < C by omega)
  have hcomm : C * (h / C) = h / C * C := Nat.mul_comm _ _
  by_cases hd : h % C = 0
  · have hceil : (h + C - 1) / C = h / C := by
      apply Nat.div_eq_of_lt_le
      · omega
      · rw [Nat.succ_mul]; omega
    rw [hceil]
    exact ⟨le_refl _, ⟨fun _ => Nat.dvd_of_mod_eq_zero hd, fun _ => rfl⟩⟩
  · have hceil : (h + C - 1) / C = h / C + 1 := by
      apply Nat.div_eq_of_lt_le
      · rw [Nat.succ_mul]; omega
      · rw [Nat.succ_mul, Nat.succ_mul]; omega
    rw [hceil]
    refine ⟨by omega, ⟨fun hh => by omega, fun hdvd => ?_⟩⟩
    exact absurd (Nat.mod_eq_zero_of_dvd hdvd) hd

/-- C18 (as amended): with the deadline reported exceeded after every full-chunk flush,
for every buffer of even length `L = 2 * h` with `h >= 1` and every chunk size `C >= 1`,
starting from cursor 0 exactly `floor(h/C) + floor(h/C)` invocations return not-complete
and the next one returns complete; this count is at most `ceil(h/C) + ceil(h/C)` and
reaches it exactly when `C` divides `h`. -/
theorem transfer_forced_call_count (C h : Nat) (hC : 1 ≤ C) (hpos : 1 ≤ h) (k : Nat)
    (s : EPaperInkplate2) (hL : s.buffer_length_ = 2 * h)
    (h0 : s.current_data_index_ = 0) :
    (transfer_calls C (fun _ => true) (h / C + h / C + 1) k s).map Call.result =
      List.replicate (h / C + h / C) false ++ [true] ∧
    h / C + h / C ≤ (h + C - 1) / C + (h + C - 1) / C ∧
    (h / C + h / C = (h + C - 1) / C + (h + C - 1) / C ↔ C ∣ h) := by
  have hhalf : s.buffer_length_ / 2 = h := by omega
  have hrest : s.buffer_length_ - s.buffer_length_ / 2 = h := by omega
  have hm1 : h / C * C ≤ h := Nat.div_mul_le_self _ _
  have hm2 : h < h / C * C + C := Nat.lt_div_mul_add (by omega)
  have hcount := transfer_calls_forced_bw C hC (h / C) k s (by rw [h0, hhalf]; omega)
    (by rw [h0, hhalf, Nat.succ_mul]; omega)
  rw [hrest] at hcount
  obtain ⟨c1, c2⟩ := floor_le_ceil_div h C hC
  refine ⟨hcount, by omega, ?_⟩
  constructor
  · intro heq
    exact c2.mp (by omega)
  · intro hd
    have := c2.mpr hd
    omega

/-- Witness of `transfer_forced_call_count`: `L = 10`, `h = 5`, `C = 4`. -/
theorem transfer_forced_call_count_witness :
    (1 ≤ 4 ∧ 1 ≤ 5 ∧
      EPaperInkplate2.buffer_length_ ⟨8, 5, [1, 2, 3, 4, 5, 6, 7, 8, 9, 10], 0⟩ = 2 * 5 ∧
      EPaperInkplate2.current_data_index_ ⟨8, 5, [1, 2, 3, 4, 5, 6, 7, 8, 9, 10], 0⟩ = 0) ∧
    (transfer_calls 4 (fun _ => true) (5 / 4 + 5 / 4 + 1) 0
        ⟨8, 5, [1, 2, 3, 4, 5, 6, 7, 8, 9, 10], 0⟩).map Call.result =
      List.replicate (5 / 4 + 5 / 4) false ++ [true] ∧
    5 / 4 + 5 / 4 ≤ (5 + 4 - 1) / 4 + (5 + 4 - 1) / 4 ∧
    (5 / 4 + 5 / 4 = (5 + 4 - 1) / 4 + (5 + 4 - 1) / 4 ↔ 4 ∣ 5) :=
  ⟨by decide,
    transfer_forced_call_count 4 5 (by decide) (by decide) 0
      ⟨8, 5, [1, 2, 3, 4, 5, 6, 7, 8, 9, 10], 0⟩ (by decide) rfl⟩

/-- C18, counterexample to the count `ceil(h/C) + ceil(h/C)`: for `L = 10`, `h = 5`,
`C = 4` and the deadline exceeded at every test, the first two invocations return
not-complete (cursor 4, then cursor 9) and the third returns complete, while
`ceil(5/4) + ceil(5/4) = 4`. -/
theorem transfer_forced_call_count_not_ceil :
    (transfer_calls 4 (fun _ => true) 3 0
        ⟨8, 5, [1, 2, 3, 4, 5, 6, 7, 8, 9, 10], 0⟩).map Call.result =
      [false, false, true] ∧
    (transfer_calls 4 (fun _ => true) 3 0
        ⟨8, 5, [1, 2, 3, 4, 5, 6, 7, 8, 9, 10], 0⟩).map
        (fun r => r.dev.current_data_index_) = [4, 9, 0] ∧
    (5 + 4 - 1) / 4 + (5 + 4 - 1) / 4 = 4 := by
  decide

/-- The panel of the driver, 104 x 212 with `C = MAX_TRANSFER_SIZE = 128`: the
constructor gives `L = 5512`, `h = 2756`, and with the deadline exceeded at every test
42 invocations return not-complete before the 43rd returns complete. -/
theorem inkplate2_forced_call_count (k : Nat) (buf : List Nat)
    (hbuf : buf.length = constructor_buffer_length 104 212) :
    (transfer_calls MAX_TRANSFER_SIZE (fun _ => true) 43 k ⟨104, 212, buf, 0⟩).map
        Call.result =
      List.replicate 42 false ++ [true] := by
  have hL : EPaperInkplate2.buffer_length_ ⟨104, 212, buf, 0⟩ = 5512 := by
    rw [EPaperInkplate2.buffer_length_, hbuf]; rfl
  have := transfer_calls_forced_bw MAX_TRANSFER_SIZE (by decide) 21 k ⟨104, 212, buf, 0⟩
    (by rw [hL]; simp [MAX_TRANSFER_SIZE]) (by rw [hL]; simp [MAX_TRANSFER_SIZE])
  rw [hL] at this
  exact this

end Inkplate2
